import Mathlib

/-!
# Verification of the gde-deshevle price-ingestion pipeline

Shallow embedding of the scraping/matching/persistence core of the
`gde-deshevle` repository, together with theorems settling the frozen
claims about it.

Conventions of the embedding:

* JS strings are modelled as Lean `String` / `List Char`.  The code only
  manipulates characters of the Latin, Cyrillic, digit and whitespace
  ranges; `String.prototype.toLowerCase` is modelled by the simple case
  mapping on exactly the ranges the normalizer's character classes refer
  to (`A`–`Z`, `А`–`Я`, `Ё`).
* JS numbers appearing as prices/scores are modelled as `ℚ` (exact
  rational arithmetic); rational values are constructed with `mkRat`,
  which denotes the same rational as the JS floating-point expression
  `2.0 * x / y` up to rounding.
* Fallible operations return `Option`/`Except`; the database, the Redis
  key set and the outcome of every external HTTP call are explicit
  parameters (`ScrapeEnv`, `World`).
-/

namespace GdeDeshevle

/-! ## Character classes (JS regex semantics)

`isWsCh` models the JS regex class `\s` (and the character set trimmed by
`String.prototype.trim`): ASCII whitespace, NBSP, and the Unicode space
separators. -/

def isWsCh (c : Char) : Bool :=
  c = ' ' ∨ c = '\t' ∨ c = '\n' ∨ c.toNat = 11 ∨ c.toNat = 12 ∨ c = '\r' ∨
  c.toNat = 0xa0 ∨ c.toNat = 0x1680 ∨
  (0x2000 ≤ c.toNat ∧ c.toNat ≤ 0x200a) ∨
  c.toNat = 0x2028 ∨ c.toNat = 0x2029 ∨ c.toNat = 0x202f ∨
  c.toNat = 0x205f ∨ c.toNat = 0x3000 ∨ c.toNat = 0xfeff

/-- The JS regex class `\d`. -/
def isDigitCh (c : Char) : Bool :=
  '0' ≤ c ∧ c ≤ '9'

/-- `String.prototype.toLowerCase`, restricted to the simple case mappings
of the ranges relevant to the normalizer (`A`–`Z`, `А`–`Я`, `Ё`). -/
def lowerChar (c : Char) : Char :=
  if 'A' ≤ c ∧ c ≤ 'Z' then Char.ofNat (c.toNat + 32)
  else if 'А' ≤ c ∧ c ≤ 'Я' then Char.ofNat (c.toNat + 32)
  else if c = 'Ё' then 'ё'
  else c

/-- The (case-insensitive) character class `[а-яёa-z0-9\s]` of
`normalizeForComparison`'s punctuation-stripping step. -/
def isWordCh (c : Char) : Bool :=
  ('а' ≤ c ∧ c ≤ 'я') ∨ c = 'ё' ∨ ('a' ≤ c ∧ c ≤ 'z') ∨
  ('0' ≤ c ∧ c ≤ '9') ∨
  ('А' ≤ c ∧ c ≤ 'Я') ∨ c = 'Ё' ∨ ('A' ≤ c ∧ c ≤ 'Z') ∨ isWsCh c

/-! ## The quantity/unit suffix regex

`normalizeForComparison` first deletes every match of the global regex

  `/\d+[\.,]?\d*\s*(кг|г|л|мл|шт|уп|пач|пак|x|×)\s*(\d+\s*(мл|г|кг|л))?/gi`

(the input is lower-cased beforehand, so the `i` flag is inert).  The
backtracking behaviour of this regex collapses to the deterministic
matcher below: the digit runs and whitespace runs are consumed greedily
(no alternative end position can ever satisfy the continuation, since no
unit token starts with a digit or a whitespace character), the unit
alternation is tried left-to-right, and the trailing optional group
matches greedily or not at all. -/

/-- The first unit alternation, in the regex's order. -/
def qtyUnits : List (List Char) :=
  [['к','г'], ['г'], ['л'], ['м','л'], ['ш','т'], ['у','п'],
   ['п','а','ч'], ['п','а','к'], ['x'], ['×']]

/-- The second (multi-pack) unit alternation, in the regex's order. -/
def sndUnits : List (List Char) :=
  [['м','л'], ['г'], ['к','г'], ['л']]

/-- Try each unit token in order; on the first one that is a prefix of
`cs`, return the remainder of `cs` after it. -/
def matchUnit : List (List Char) → List Char → Option (List Char)
  | [], _ => none
  | u :: us, cs => if u.isPrefixOf cs then some (cs.drop u.length) else matchUnit us cs

/-- Match `\s*(кг|…|×)\s*(\d+\s*(мл|г|кг|л))?` at the head of `cs`,
returning the remainder after the full match. -/
def qtyTail (cs : List Char) : Option (List Char) :=
  match matchUnit qtyUnits (cs.dropWhile isWsCh) with
  | none => none
  | some afterUnit =>
    if (afterUnit.dropWhile isWsCh).takeWhile isDigitCh = [] then
      some (afterUnit.dropWhile isWsCh)
    else
      match matchUnit sndUnits
          (((afterUnit.dropWhile isWsCh).dropWhile isDigitCh).dropWhile isWsCh) with
      | some after2 => some after2
      | none => some (afterUnit.dropWhile isWsCh)

/-- Match the whole quantity regex at the head of `cs`, returning the
remainder after the match.  `[\.,]?` commits to the separator when one is
present: if the continuation then fails, the no-separator alternative
would have to read a unit token at the separator character itself, which
is impossible. -/
def qtyMatch (cs : List Char) : Option (List Char) :=
  if cs.takeWhile isDigitCh = [] then none
  else
    match cs.dropWhile isDigitCh with
    | c :: r2 =>
      if c = '.' ∨ c = ',' then qtyTail (r2.dropWhile isDigitCh) else qtyTail (c :: r2)
    | [] => qtyTail []

/-- Fuel-indexed driver of the global replacement: scan left to right; at
each position delete a regex match if one starts there, otherwise keep the
character.  The fuel (always instantiated with the list length, which
suffices since a match consumes at least one character) keeps the
recursion structural so that the kernel can evaluate it. -/
def stripQtyGo : Nat → List Char → List Char
  | _, [] => []
  | 0, l => l
  | fuel + 1, c :: cs =>
    match qtyMatch (c :: cs) with
    | some rest => stripQtyGo fuel rest
    | none => c :: stripQtyGo fuel cs

/-- `.replace(/\d+[\.,]?\d*\s*(кг|…)\s*(\d+\s*(мл|г|кг|л))?/gi, '')`. -/
def stripQty (cs : List Char) : List Char :=
  stripQtyGo cs.length cs

/-- `.replace(/[^а-яёa-z0-9\s]/gi, ' ')`. -/
def punctToSpace (cs : List Char) : List Char :=
  cs.map fun c => if isWordCh c then c else ' '

/-- One step of `.replace(/\s+/g, ' ')`, applied by `foldr`: a whitespace
character is dropped if the output already starts with a whitespace
character, otherwise it becomes a single `' '`. -/
def collapseStep (c : Char) (acc : List Char) : List Char :=
  if isWsCh c then
    match acc with
    | a :: _ => if isWsCh a then acc else ' ' :: acc
    | [] => [' ']
  else c :: acc

/-- `.replace(/\s+/g, ' ')`. -/
def collapseWs (cs : List Char) : List Char :=
  cs.foldr collapseStep []

/-- Remove leading JS whitespace. -/
def trimLeftWs (cs : List Char) : List Char :=
  cs.dropWhile isWsCh

/-- Remove trailing JS whitespace. -/
def trimRightWs : List Char → List Char
  | [] => []
  | c :: cs =>
    match trimRightWs cs with
    | [] => if isWsCh c then [] else [c]
    | r => c :: r

/-- `String.prototype.trim`. -/
def trimWs (cs : List Char) : List Char :=
  trimRightWs (trimLeftWs cs)

/-- No two adjacent whitespace characters (the shape invariant of
`collapseWs` output). -/
def noAdjWs : List Char → Prop
  | [] => True
  | [_] => True
  | a :: b :: t => ¬ (isWsCh a = true ∧ isWsCh b = true) ∧ noAdjWs (b :: t)

/-- `normalizeForComparison` (src/server/src/scrapers/normalizer.ts):
lower-case, strip quantity/unit package suffixes, strip punctuation to
whitespace, collapse whitespace runs, trim. -/
def normalizeForComparison (raw : String) : String :=
  ⟨trimWs (collapseWs (punctToSpace (stripQty (raw.data.map lowerChar))))⟩

/-! ## String similarity (the `string-similarity` dependency)

`findBestMatch` scores candidates with
`stringSimilarity.compareTwoStrings`, Dice's coefficient on character
bigrams.  The JS library computes `2.0 * intersectionSize / (first.length
+ second.length - 2)` in floating point; the embedding represents the
same rational exactly with `mkRat`. -/

/-- `first.replace(/\s+/g, '')`: delete every whitespace character. -/
def stripAllWs (cs : List Char) : List Char :=
  cs.filter fun c => ¬ isWsCh c

/-- The list of adjacent character pairs of a string. -/
def bigrams : List Char → List (Char × Char)
  | a :: b :: t => (a, b) :: bigrams (b :: t)
  | _ => []

/-- Size of the multiset intersection, as computed by the library's
counting loop: walk the second list, consuming one matching occurrence
from the first list per hit. -/
def countInter : List (Char × Char) → List (Char × Char) → Nat
  | _, [] => 0
  | xs, y :: ys => if y ∈ xs then countInter (xs.erase y) ys + 1 else countInter xs ys

/-- `compareTwoStrings(first, second)` of the `string-similarity` library:
1 on equal (whitespace-stripped) strings, 0 when either side is shorter
than one bigram, otherwise Dice's coefficient of the bigram multisets. -/
def compareTwoStrings (a b : String) : ℚ :=
  let f := stripAllWs a.data
  let s := stripAllWs b.data
  if f = s then 1
  else if f.length < 2 ∨ s.length < 2 then 0
  else mkRat (2 * countInter (bigrams f) (bigrams s)) (f.length + s.length - 2)

/-! ## The matcher (src/server/src/scrapers/normalizer.ts) -/

/-- `CanonicalProduct` as loaded by `loadCanonicalProducts` (id, display
name, aliases).  Ids are `SERIAL` primary keys, hence naturals. -/
structure CanonicalProduct where
  id : Nat
  name : String
  aliases : List String
deriving DecidableEq, Repr

/-- `NormalizedMatch`: the result record of `findBestMatch`. -/
structure NormalizedMatch where
  productId : Nat
  productName : String
  similarity : ℚ
deriving DecidableEq, Repr

/-- `SIMILARITY_THRESHOLD = 0.65` (constructed with `mkRat`; the lemma
`SIMILARITY_THRESHOLD_eq` relates it to the literal). -/
def SIMILARITY_THRESHOLD : ℚ := mkRat 13 20

/-- The candidate strings of one canonical product: its normalized name
and all normalized aliases, empty strings filtered out
(`[...].filter(Boolean)`). -/
def candidateStrings (c : CanonicalProduct) : List String :=
  (normalizeForComparison c.name :: c.aliases.map normalizeForComparison).filter
    fun s => s ≠ ""

/-- `Math.max(...scores)` over the candidate scores: `none` models the
`-Infinity` of an empty candidate list (which can never reach the
threshold). -/
def topScore? (nr : String) (c : CanonicalProduct) : Option ℚ :=
  match (candidateStrings c).map (compareTwoStrings nr) with
  | [] => none
  | x :: xs => some (xs.foldl max x)

/-- The body of `findBestMatch`'s loop over canonical products: accept a
candidate when its top score reaches the threshold and strictly exceeds
the best score so far (`!bestMatch || topScore > bestMatch.similarity`). -/
def stepBest (nr : String) (acc : Option NormalizedMatch) (c : CanonicalProduct) :
    Option NormalizedMatch :=
  match topScore? nr c with
  | none => acc
  | some top =>
    if SIMILARITY_THRESHOLD ≤ top then
      match acc with
      | none => some ⟨c.id, c.name, top⟩
      | some b => if b.similarity < top then some ⟨c.id, c.name, top⟩ else acc
    else acc

/-- `findBestMatch(rawName, canonicals)`: null on an empty normalized raw
name, otherwise the first-seen canonical product of maximal top score,
provided that score reaches `SIMILARITY_THRESHOLD`. -/
def findBestMatch (rawName : String) (canonicals : List CanonicalProduct) :
    Option NormalizedMatch :=
  let nr := normalizeForComparison rawName
  if nr = "" then none
  else canonicals.foldl (stepBest nr) none

/-! ## Data model of the ingestion pipeline -/

/-- `ScrapedProduct` (src/server/src/scrapers/base-scraper.ts): one raw
listing produced by a source adapter. -/
structure ScrapedProduct where
  storeProductName : String
  price : ℚ
  pricePerUnit : Option ℚ
  category : String
  url : String
  imageUrl : Option String
deriving DecidableEq, Repr

/-- One row of the `prices` table (src/server/src/db/schema.sql), keyed
by `(product_id, store_id)`.  Timestamps are integers (epoch
milliseconds); the `SERIAL` surrogate `id` is not modelled. -/
structure PriceRow where
  productId : Nat
  storeId : Nat
  price : ℚ
  pricePerUnit : Option ℚ
  storeProductName : String
  storeProductUrl : String
  scrapedAt : Int
deriving DecidableEq, Repr

/-- The relational store as seen by the pipeline: canonical products
(with aliases), the `stores` slug→id table, and the `prices` table. -/
structure Db where
  products : List CanonicalProduct
  storeIds : List (String × Nat)
  prices : List PriceRow
deriving DecidableEq, Repr

/-- Persistent world: the database plus the set of Redis cache keys. -/
structure World where
  db : Db
  cacheKeys : List String
deriving DecidableEq, Repr

/-- `ScrapeRunStats` (src/server/src/cron/scrape-job.ts).  `durationMs`
(wall clock) is not modelled. -/
structure RunStats where
  store : String
  totalScraped : Nat
  matched : Nat
  inserted : Nat
  errors : Nat
deriving DecidableEq, Repr

/-- `STORE_SLUGS` (src/server/src/scrapers/index.ts), in the object's
insertion order. -/
def STORE_SLUGS : List String :=
  ["lenta", "perekrestok", "pyaterochka", "magnit", "vkusvill"]

/-- The environment of one sweep: outcome of each store adapter's
`scrapeProducts()` (an exception or a listing sequence), which row-level
upserts fail for anticipated reasons beyond the `price > 0` check
constraint, whether the Redis invalidation step throws, and the run's
clock.  Connection-level failures are environmental nondeterminism
outside this model; row-level statement failures — and the PostgreSQL
transaction abort they cause (the code opens no savepoints, so every
later statement in the poisoned transaction fails and the final `COMMIT`
silently rolls the whole transaction back) — are modelled. -/
structure ScrapeEnv where
  scrape : String → Except String (List ScrapedProduct)
  rowFails : PriceRow → Bool
  cacheFails : Bool
  now : Int

/-- `BaseScraper.scrapeAll` (src/server/src/scrapers/base-scraper.ts):
run `scrapeProducts()`, catching any error and returning an empty
listing sequence in that case. -/
def scrapeAllModel (env : ScrapeEnv) (slug : String) : List ScrapedProduct :=
  match env.scrape slug with
  | .ok ps => ps
  | .error _ => []

/-- `NOW() - INTERVAL '7 days'` in epoch milliseconds. -/
def sevenDaysMs : Int := 7 * 24 * 60 * 60 * 1000

/-- `INTERVAL '24 hours'` in epoch milliseconds. -/
def hours24Ms : Int := 24 * 60 * 60 * 1000

/-- The freshness read filter of `getPricesForProducts`
(src/server/src/services/priceService.ts): `scraped_at > NOW() - maxAge`
(the service instantiates `maxAge` with 24 hours). -/
def isFresh (now maxAge : Int) (r : PriceRow) : Bool :=
  now - maxAge < r.scrapedAt

/-! ## Cache keys and the Redis `KEYS` glob -/

/-- Decimal digits of `n`, most significant first (the path JS number →
string taken by template literals and `Array.prototype.join`).  The fuel
(instantiated with `n + 1`, always sufficient) keeps recursion
structural. -/
def natDigitsGo : Nat → Nat → List Char → List Char
  | 0, _, acc => acc
  | fuel + 1, n, acc =>
    let d := Char.ofNat (n % 10 + 48)
    if n < 10 then d :: acc else natDigitsGo fuel (n / 10) (d :: acc)

/-- `${n}` for a natural number. -/
def natToStr (n : Nat) : List Char :=
  natDigitsGo (n + 1) n []

/-- `Array.prototype.join(',')`. -/
def joinComma : List (List Char) → List Char
  | [] => []
  | [x] => x
  | x :: y :: t => x ++ ',' :: joinComma (y :: t)

/-- `pricesCacheKey(productIds)` (src/server/src/services/priceService.ts):
`` `prices:${[...productIds].sort((a, b) => a - b).join(',')}` ``. -/
def pricesCacheKey (productIds : List Nat) : List Char :=
  "prices:".data ++ joinComma ((productIds.insertionSort (· ≤ ·)).map natToStr)

/-- The invalidation pattern `` `prices:*:${storeId}` `` of
`runStoreScape`'s cache step. -/
def invalidationPattern (storeId : Nat) : List Char :=
  "prices:*:".data ++ natToStr storeId

/-- Redis `KEYS` glob matching, restricted to the `*`/`?` wildcards (the
patterns used by the pipeline contain no `[...]` class).  Fuel-indexed to
keep the recursion structural; `globMatch` instantiates fuel sufficiently. -/
def globMatchGo : Nat → List Char → List Char → Bool
  | 0, _, _ => false
  | _ + 1, [], s => s.isEmpty
  | fuel + 1, p :: ps, s =>
    if p = '*' then
      globMatchGo fuel ps s ||
        (match s with
         | [] => false
         | _ :: s' => globMatchGo fuel (p :: ps) s')
    else
      match s with
      | [] => false
      | c :: cs => (p = '?' || p = c) && globMatchGo fuel ps cs

/-- Whether Redis key `s` matches glob `pat`. -/
def globMatch (pat s : List Char) : Bool :=
  globMatchGo (pat.length + s.length + 1) pat s

/-! ## The ingestion orchestrator (src/server/src/cron/scrape-job.ts) -/

/-- `storeIds[slug]` (built with `Object.fromEntries`). -/
def lookupStore (storeIds : List (String × Nat)) (slug : String) : Option Nat :=
  (storeIds.find? fun p => p.1 = slug).map (·.2)

/-- The `PriceRow` a matched listing attempts to upsert. -/
def matchRow (now : Int) (sid : Nat) (m : NormalizedMatch) (raw : ScrapedProduct) : PriceRow :=
  ⟨m.productId, sid, raw.price, raw.pricePerUnit, raw.storeProductName, raw.url, now⟩

/-- Whether the row-level `INSERT … ON CONFLICT DO UPDATE` succeeds: the
`prices.price` column carries `CHECK (price > 0)` (schema.sql), and the
environment may declare further anticipated row failures. -/
def upsertSucceeds (env : ScrapeEnv) (row : PriceRow) : Bool :=
  0 < row.price ∧ ¬ env.rowFails row

/-- Apply a successful upsert: overwrite the row with the same
`(product_id, store_id)` key if present (the `DO UPDATE SET` branch
replaces every non-key column, including `scraped_at`), else append. -/
def upsertRow (prices : List PriceRow) (row : PriceRow) : List PriceRow :=
  if prices.any fun r => r.productId = row.productId ∧ r.storeId = row.storeId then
    prices.map fun r =>
      if r.productId = row.productId ∧ r.storeId = row.storeId then row else r
  else prices ++ [row]

/-- `UPDATE prices SET scraped_at = NOW() - INTERVAL '7 days' WHERE
store_id = $1`. -/
def markStale (now : Int) (sid : Nat) (prices : List PriceRow) : List PriceRow :=
  prices.map fun r =>
    if r.storeId = sid then { r with scrapedAt := now - sevenDaysMs } else r

/-- In-transaction state: the `prices` table as the open transaction
sees it, the run counters, and whether a failed statement has already
aborted the transaction (PostgreSQL error state `25P02`: with no
savepoints, every statement after the first failure fails too, and the
final `COMMIT` silently rolls everything back). -/
structure TxState where
  prices : List PriceRow
  matched : Nat
  inserted : Nat
  errors : Nat
  aborted : Bool
deriving DecidableEq, Repr

/-- The body of `runStoreScape`'s per-listing loop: run the matcher; on a
match count it, then attempt the upsert.  In an already-aborted
transaction the statement fails immediately (`25P02`), caught and counted
as a row error like any other; a first row-level failure is caught,
counted, and leaves the transaction aborted. -/
def processListing (env : ScrapeEnv) (canonicals : List CanonicalProduct) (sid : Nat)
    (st : TxState) (raw : ScrapedProduct) : TxState :=
  match findBestMatch raw.storeProductName canonicals with
  | none => st
  | some m =>
    let row := matchRow env.now sid m raw
    if st.aborted then
      ⟨st.prices, st.matched + 1, st.inserted, st.errors + 1, true⟩
    else if upsertSucceeds env row then
      ⟨upsertRow st.prices row, st.matched + 1, st.inserted + 1, st.errors, false⟩
    else
      ⟨st.prices, st.matched + 1, st.inserted, st.errors + 1, true⟩

/-- The `(product_id, store_id)` keys whose upsert statements succeed
(the rows the run rediscovers).  Successful upserts stop at the first
row-level failure: it aborts the transaction, and every later statement
fails. -/
def upsertedKeys (env : ScrapeEnv) (canonicals : List CanonicalProduct) (sid : Nat) :
    List ScrapedProduct → List (Nat × Nat)
  | [] => []
  | raw :: rest =>
    match findBestMatch raw.storeProductName canonicals with
    | none => upsertedKeys env canonicals sid rest
    | some m =>
      let row := matchRow env.now sid m raw
      if upsertSucceeds env row then
        (row.productId, row.storeId) :: upsertedKeys env canonicals sid rest
      else []

/-- Whether some matched listing's upsert statement fails, poisoning the
transaction so that the final `COMMIT` silently rolls it back. -/
def rowFailure (env : ScrapeEnv) (canonicals : List CanonicalProduct) (sid : Nat)
    (raws : List ScrapedProduct) : Bool :=
  raws.any fun raw =>
    match findBestMatch raw.storeProductName canonicals with
    | none => false
    | some m => ¬ upsertSucceeds env (matchRow env.now sid m raw)

/-- `runStoreScape(slug)` (src/server/src/cron/scrape-job.ts): scrape,
early-return on zero listings, resolve the store id (a missing or falsy
id throws, caught by the outer handler as one error), then in one
transaction mark the store's rows stale and upsert every matched listing
(row errors caught and counted; any such failure aborts the savepointless
transaction, whose final `COMMIT` then silently rolls back — mark-stale and
earlier upserts included), and finally best-effort cache invalidation by
the `prices:*:<storeId>` pattern scan (which runs either way, since the
`COMMIT` of an aborted transaction reports success). -/
def runStoreScape (env : ScrapeEnv) (slug : String) (w : World) : World × RunStats :=
  let raw := scrapeAllModel env slug
  if raw = [] then (w, ⟨slug, 0, 0, 0, 0⟩)
  else
    match lookupStore w.db.storeIds slug with
    | none => (w, ⟨slug, raw.length, 0, 0, 1⟩)
    | some sid =>
      if sid = 0 then (w, ⟨slug, raw.length, 0, 0, 1⟩)
      else
        let st := raw.foldl (processListing env w.db.products sid)
          ⟨markStale env.now sid w.db.prices, 0, 0, 0, false⟩
        let prices' := if st.aborted then w.db.prices else st.prices
        let keys' :=
          if env.cacheFails then w.cacheKeys
          else w.cacheKeys.filter fun k => ¬ globMatch (invalidationPattern sid) k.data
        (⟨⟨w.db.products, w.db.storeIds, prices'⟩, keys'⟩,
         ⟨slug, raw.length, st.matched, st.inserted, st.errors⟩)

/-- Sequential sweep over a list of store slugs, threading the world. -/
def sweepAux (env : ScrapeEnv) : List String → World → World × List RunStats
  | [], w => (w, [])
  | s :: rest, w =>
    let (w1, st) := runStoreScape env s w
    let (w2, sts) := sweepAux env rest w1
    (w2, st :: sts)

/-- `runScrapeNow()` (src/server/src/cron/scrape-job.ts): run every store
of `STORE_SLUGS` sequentially and collect the stats.  The function
declares no parameter. -/
def runScrapeNow (env : ScrapeEnv) (w : World) : World × List RunStats :=
  sweepAux env STORE_SLUGS w

/-- The call `runScrapeNow([store])` made by `POST /api/scrape/:store`
(src/server/src/app.ts): JavaScript silently drops arguments a function
does not declare, so the requested subset has no effect. -/
def runScrapeNowWithSlugs (_requested : List String) (env : ScrapeEnv) (w : World) :
    World × List RunStats :=
  runScrapeNow env w

/-! ## Source adapters

The adapters' HTTP traffic, pagination mechanics and retry/delay timing
are environmental; each adapter model takes as input the sequence of
items (or per-strategy product lists) that the upstream endpoints
delivered, in processing order, and reproduces the adapter's
item-mapping, filtering, aggregation and strategy-selection logic. -/

/-- One item of VkusVill's catalog API response
(src/server/src/scrapers/vkusvill-scraper.ts, `VvApiItem`). -/
structure VvApiItem where
  title : String
  slug : Option String
  image : Option String
  price : ℚ
  priceByUnit : Option ℚ
deriving DecidableEq, Repr

def vvBaseUrl : String := "https://vkusvill.ru"

/-- The per-item mapping of `VkusvillScraper.scrapeViaApi`: items with a
falsy price (`if (!item.price) continue`, i.e. a zero price — the only
falsy rational) are dropped; all other fields are copied through. -/
def vvMapItem (category : String) (it : VvApiItem) : Option ScrapedProduct :=
  if it.price = 0 then none
  else
    some ⟨it.title, it.price, it.priceByUnit, category,
      (match it.slug with
       | some s => vvBaseUrl ++ "/goods/" ++ s ++ "/"
       | none => vvBaseUrl),
      it.image⟩

/-- The listing sequence VkusVill's API strategy produces from the items
the endpoint delivered (across all pages, in order). -/
def vvApiProducts (category : String) (items : List VvApiItem) : List ScrapedProduct :=
  items.filterMap (vvMapItem category)

/-- Outcome of one VkusVill category scrape's two strategies: the API
strategy (which may throw) and the Playwright page fallback. -/
structure VvCategoryEnv where
  apiResult : Except String (List ScrapedProduct)
  pageResult : List ScrapedProduct

/-- `VkusvillScraper.scrapeCategory`: try the API; if it throws or yields
zero products, fall back to page scraping.  `withRetry` re-runs the same
(here deterministic) body, so it does not change the result. -/
def vkusvillScrapeCategory (e : VvCategoryEnv) : List ScrapedProduct :=
  match e.apiResult with
  | .ok ps => if ps = [] then e.pageResult else ps
  | .error _ => e.pageResult

/-- One item of Magnit's v3 goods API
(src/server/src/scrapers/magnit-scraper.ts, `MagnitGood`). -/
structure MagnitGood where
  id : String
  name : String
  price : Option ℚ
  pricePerKg : Option ℚ
  pricePerUnit : Option ℚ
  categoryName : Option String
  slug : Option String
  url : Option String
  images : List String
deriving DecidableEq, Repr

def magnitBaseUrl : String := "https://magnit.ru"

/-- `mapCategory` of `BaseScraper` is keyword matching on the category
name; its exact table is irrelevant to the claims, and it is modelled as
the identity on the raw category string. -/
def magnitMapCategoryName (s : String) : String := s

/-- The per-item mapping of `MagnitScraper.scrapeCategoryById` (lines
160–197): drop items with a falsy name or a falsy/non-positive price,
apply the kopeck magnitude heuristic (`> 50000 ⇒ / 100`) to the price and
the price-per-unit, and build the product URL from `url`/`slug`/`id`. -/
def magnitMapGood (categoryId : String) (it : MagnitGood) : Option ScrapedProduct :=
  if it.name = "" then none
  else
    match it.price with
    | none => none
    | some rawPrice =>
      if rawPrice ≤ 0 then none
      else
        let price := if 50000 < rawPrice then rawPrice / 100 else rawPrice
        let rawPpu : Option ℚ :=
          match it.pricePerKg with
          | some p => some p
          | none => it.pricePerUnit
        let pricePerUnit : Option ℚ :=
          match rawPpu with
          | some p => if p = 0 then none else if 50000 < p then some (p / 100) else some p
          | none => none
        let productSlug := it.slug.getD it.id
        let url :=
          match it.url with
          | some u =>
            if "http".data.isPrefixOf u.data then u else magnitBaseUrl ++ u
          | none => magnitBaseUrl ++ "/magnit-market/p/" ++ productSlug ++ "/"
        some ⟨it.name, price, pricePerUnit,
          magnitMapCategoryName (it.categoryName.getD categoryId), url, it.images.head?⟩

/-- `MagnitScraper.scrapeProducts`: the mapped goods of every category are
concatenated with `allProducts.push(...products)` — no deduplication.
Input: per category, the goods its pages delivered, in order. -/
def magnitScrapeProducts (categories : List (String × List MagnitGood)) :
    List ScrapedProduct :=
  (categories.map fun c => (c.2.filterMap (magnitMapGood c.1))).flatten

/-- A JS `Map<string, ScrapedProduct>` as an insertion-ordered
association list (keys are unique by construction, as in a JS `Map`).
`Map.prototype.set` overwrites the value in place when the key exists
(keeping its original position) and appends otherwise. -/
def mapSet : List (String × ScrapedProduct) → String → ScrapedProduct →
    List (String × ScrapedProduct)
  | [], k, v => [(k, v)]
  | p :: t, k, v => if p.1 = k then (k, v) :: t else p :: mapSet t k v

/-- `Map.prototype.get`-style lookup on the association list. -/
def assocFind? (m : List (String × ScrapedProduct)) (k : String) : Option ScrapedProduct :=
  (m.find? fun p => p.1 = k).map (·.2)

/-- `for (const p of ps) allProducts.set(p.url, p)`. -/
def mapSetAll (m : List (String × ScrapedProduct)) (ps : List ScrapedProduct) :
    List (String × ScrapedProduct) :=
  ps.foldl (fun m p => mapSet m p.url p) m

/-- The product lists each Pyaterochka strategy would deliver (already
mapped and filtered, per keyword / across the special-offers pages / across
the catalog pages, in processing order; a failed or blocked call
contributes `[]`). -/
structure PyatEnv where
  searchResults : List (List ScrapedProduct)
  specialOffers : List ScrapedProduct
  catalog : List ScrapedProduct

/-- `PyaterochkaScraper.scrapeProducts` (lines 122–144): collect search
results per keyword into the URL-keyed map (`searchWorked` iff some
keyword yielded a non-empty list); if the search strategy yielded
nothing, run the special-offers strategy; if fewer than 50 unique
products were collected, additionally run the category-catalog strategy;
return the map's values in insertion order. -/
def pyaterochkaScrapeProducts (e : PyatEnv) : List ScrapedProduct :=
  let afterSearch := e.searchResults.foldl mapSetAll []
  let searchWorked := e.searchResults.any fun ps => ps ≠ []
  let afterOffers :=
    if searchWorked then afterSearch else mapSetAll afterSearch e.specialOffers
  let final :=
    if afterOffers.length < 50 then mapSetAll afterOffers e.catalog else afterOffers
  final.map Prod.snd

/-- The endpoint product lists of Lenta's promo/catalog pipeline
(src/server/src/scrapers/vkusvill-scraper.ts bundle, `LentaScraper`):
promo endpoints and pagination, then the catalog fallback when fewer than
30 unique products were collected. -/
structure LentaEnv where
  promo : List ScrapedProduct
  catalog : List ScrapedProduct

/-- `LentaScraper.scrapeProducts`: all promo products enter the URL-keyed
map; the catalog strategy runs only when fewer than 30 unique products
were collected (the step-3 pagination is folded into `promo`). -/
def lentaScrapeProducts (e : LentaEnv) : List ScrapedProduct :=
  let afterPromo := mapSetAll [] e.promo
  let final :=
    if afterPromo.length < 30 then mapSetAll afterPromo e.catalog else afterPromo
  final.map Prod.snd

/-! ## Concrete instances used by counterexamples and witnesses -/

/-- A small store catalog: the five store slugs with ids 1–5. -/
def demoStoreIds : List (String × Nat) :=
  [("lenta", 1), ("perekrestok", 2), ("pyaterochka", 3), ("magnit", 4), ("vkusvill", 5)]

/-- A one-product canonical catalog. -/
def demoProducts : List CanonicalProduct := [⟨1, "Молоко", []⟩]

/-- A listing that matches canonical product 1 exactly. -/
def listingFor (slug : String) : ScrapedProduct :=
  ⟨"Молоко", 10, none, "dairy", "https://shop.example/" ++ slug ++ "/moloko", none⟩

/-- Environment where every adapter succeeds except Perekrestok's, which
always throws. -/
def envC2 : ScrapeEnv :=
  ⟨fun slug => if slug = "perekrestok" then .error "blocked" else .ok [listingFor slug],
   fun _ => false, false, 1000000⟩

def wC2 : World := ⟨⟨demoProducts, demoStoreIds, []⟩, []⟩

/-- Environment where Lenta's adapter yields zero listings. -/
def envC3 : ScrapeEnv :=
  ⟨fun slug => if slug = "lenta" then .ok [] else .ok [listingFor slug],
   fun _ => false, false, 1000000⟩

/-- A pre-existing Lenta price row for a product the run will not
rediscover. -/
def wC3 : World :=
  ⟨⟨demoProducts, demoStoreIds, [⟨1, 1, 5, none, "Молоко", "u", 999⟩]⟩, []⟩

/-- Environment where every adapter succeeds. -/
def envOk : ScrapeEnv :=
  ⟨fun slug => .ok [listingFor slug], fun _ => false, false, 1000000⟩

/-- Environment where every adapter succeeds but every upsert for
product 1 fails at row level (aborting the store's transaction). -/
def envRowFail : ScrapeEnv :=
  ⟨fun slug => .ok [listingFor slug], fun r => r.productId = 1, false, 1000000⟩

/-- World holding one cache entry written by the read path
(`getPricesForProducts([1])`). -/
def wC4 : World := ⟨⟨demoProducts, demoStoreIds, []⟩, [⟨pricesCacheKey [1]⟩]⟩

def wC5 : World := ⟨⟨demoProducts, demoStoreIds, []⟩, []⟩

/-- World with a pre-existing Lenta record for product 9, which no run
over `demoProducts` can rediscover. -/
def wC3W : World :=
  ⟨⟨demoProducts, demoStoreIds, [⟨9, 1, 5, none, "Хлеб", "u", 999⟩]⟩, []⟩

/-- Two distinct Pyaterochka products. -/
def pA : ScrapedProduct := ⟨"Молоко", 1, none, "dairy", "https://5ka.ru/product/a/", none⟩

def pB : ScrapedProduct := ⟨"Кефир", 2, none, "dairy", "https://5ka.ru/product/b/", none⟩

/-- Pyaterochka environment where the search strategy succeeds (one
product) and the catalog strategy would deliver another product. -/
def pyatEnvCx : PyatEnv := ⟨[[pA]], [], [pB]⟩

/-- A Magnit API item with a well-formed positive price. -/
def gM : MagnitGood := ⟨"7", "Сыр", some 100, none, none, none, some "syr", none, []⟩

/-- A VkusVill API item carrying a negative price (not falsy in JS). -/
def vvNegItem : VvApiItem := ⟨"Сыр", none, none, -5, none⟩

/-! ## Lemmas: run counters -/

/-- Does the matcher find a canonical product for this listing? -/
def matchesSome (cs : List CanonicalProduct) (raw : ScrapedProduct) : Bool :=
  (findBestMatch raw.storeProductName cs).isSome

theorem foldl_process_counts (env : ScrapeEnv) (cs : List CanonicalProduct) (sid : Nat) :
    ∀ (raws : List ScrapedProduct) (st : TxState),
      (raws.foldl (processListing env cs sid) st).matched
        = st.matched + raws.countP (matchesSome cs) ∧
      (raws.foldl (processListing env cs sid) st).inserted
          + (raws.foldl (processListing env cs sid) st).errors
        = st.inserted + st.errors + raws.countP (matchesSome cs) ∧
      (raws.foldl (processListing env cs sid) st).inserted
        = st.inserted
          + (if st.aborted = true then 0 else (upsertedKeys env cs sid raws).length) := by
  intro raws
  induction raws with
  | nil =>
    intro st
    cases hab : st.aborted <;> simp [upsertedKeys, hab]
  | cons r rest ih =>
    intro st
    have hcons : (r :: rest).foldl (processListing env cs sid) st
        = rest.foldl (processListing env cs sid) (processListing env cs sid st r) := rfl
    rw [hcons]
    obtain ⟨h1, h2, h3⟩ := ih (processListing env cs sid st r)
    rw [h1, h2, h3]
    unfold processListing matchesSome
    cases hm : findBestMatch r.storeProductName cs with
    | none =>
      simp [hm, List.countP_cons, upsertedKeys]
    | some m =>
      cases hab : st.aborted with
      | true =>
        simp [hm, hab, List.countP_cons]
        omega
      | false =>
        by_cases hu : upsertSucceeds env (matchRow env.now sid m r)
        · simp [hm, hab, hu, List.countP_cons, upsertedKeys]
          omega
        · simp [hm, hab, hu, List.countP_cons, upsertedKeys]
          omega

theorem foldl_process_frozen (env : ScrapeEnv) (cs : List CanonicalProduct) (sid : Nat) :
    ∀ (raws : List ScrapedProduct) (st : TxState), st.aborted = true →
      (raws.foldl (processListing env cs sid) st).prices = st.prices ∧
      (raws.foldl (processListing env cs sid) st).aborted = true := by
  intro raws
  induction raws with
  | nil =>
    intro st h
    exact ⟨rfl, h⟩
  | cons raw rest ih =>
    intro st h
    have hcons : (raw :: rest).foldl (processListing env cs sid) st
        = rest.foldl (processListing env cs sid) (processListing env cs sid st raw) := rfl
    rw [hcons]
    cases hm : findBestMatch raw.storeProductName cs with
    | none =>
      have hst : processListing env cs sid st raw = st := by
        unfold processListing
        rw [hm]
      rw [hst]
      exact ih st h
    | some m =>
      have hst : processListing env cs sid st raw
          = ⟨st.prices, st.matched + 1, st.inserted, st.errors + 1, true⟩ := by
        unfold processListing
        rw [hm]
        simp [h]
      rw [hst]
      obtain ⟨hp, ha⟩ := ih ⟨st.prices, st.matched + 1, st.inserted, st.errors + 1, true⟩ rfl
      exact ⟨hp, ha⟩

theorem foldl_process_aborts (env : ScrapeEnv) (cs : List CanonicalProduct) (sid : Nat) :
    ∀ (raws : List ScrapedProduct) (st : TxState),
      rowFailure env cs sid raws = true →
      (raws.foldl (processListing env cs sid) st).aborted = true := by
  intro raws
  induction raws with
  | nil =>
    intro st h
    exact absurd h (by simp [rowFailure])
  | cons raw rest ih =>
    intro st h
    have hcons : (raw :: rest).foldl (processListing env cs sid) st
        = rest.foldl (processListing env cs sid) (processListing env cs sid st raw) := rfl
    rw [hcons]
    cases hm : findBestMatch raw.storeProductName cs with
    | none =>
      have hst : processListing env cs sid st raw = st := by
        unfold processListing
        rw [hm]
      have hr : rowFailure env cs sid rest = true := by
        unfold rowFailure at h ⊢
        rw [List.any_cons] at h
        simpa [hm] using h
      rw [hst]
      exact ih st hr
    | some m =>
      cases hab : st.aborted with
      | true =>
        have hst : (processListing env cs sid st raw).aborted = true := by
          unfold processListing
          rw [hm]
          simp [hab]
        exact (foldl_process_frozen env cs sid rest _ hst).2
      | false =>
        by_cases hu : upsertSucceeds env (matchRow env.now sid m raw) = true
        · have hr : rowFailure env cs sid rest = true := by
            unfold rowFailure at h ⊢
            rw [List.any_cons] at h
            simpa [hm, hu] using h
          have hst : processListing env cs sid st raw
              = ⟨upsertRow st.prices (matchRow env.now sid m raw), st.matched + 1,
                 st.inserted + 1, st.errors, false⟩ := by
            unfold processListing
            rw [hm]
            simp [hab, hu]
          rw [hst]
          exact ih _ hr
        · have hst : (processListing env cs sid st raw).aborted = true := by
            unfold processListing
            rw [hm]
            simp [hab, hu]
          exact (foldl_process_frozen env cs sid rest _ hst).2

theorem foldl_process_commits (env : ScrapeEnv) (cs : List CanonicalProduct) (sid : Nat) :
    ∀ (raws : List ScrapedProduct) (st : TxState),
      rowFailure env cs sid raws = false → st.aborted = false →
      (raws.foldl (processListing env cs sid) st).aborted = false := by
  intro raws
  induction raws with
  | nil =>
    intro st _ hab
    exact hab
  | cons raw rest ih =>
    intro st h hab
    have hcons : (raw :: rest).foldl (processListing env cs sid) st
        = rest.foldl (processListing env cs sid) (processListing env cs sid st raw) := rfl
    rw [hcons]
    cases hm : findBestMatch raw.storeProductName cs with
    | none =>
      have hst : processListing env cs sid st raw = st := by
        unfold processListing
        rw [hm]
      have hr : rowFailure env cs sid rest = false := by
        unfold rowFailure at h ⊢
        rw [List.any_cons] at h
        simpa [hm] using h
      rw [hst]
      exact ih st hr hab
    | some m =>
      have hu : upsertSucceeds env (matchRow env.now sid m raw) = true := by
        unfold rowFailure at h
        rw [List.any_cons] at h
        by_contra hu
        simp [hm, hu] at h
      have hr : rowFailure env cs sid rest = false := by
        unfold rowFailure at h ⊢
        rw [List.any_cons] at h
        simpa [hm, hu] using h
      have hst : processListing env cs sid st raw
          = ⟨upsertRow st.prices (matchRow env.now sid m raw), st.matched + 1,
             st.inserted + 1, st.errors, false⟩ := by
        unfold processListing
        rw [hm]
        simp [hab, hu]
      rw [hst]
      exact ih _ hr rfl

/-- **C10** For every single-store run, the returned `RunStats` satisfies
`inserted ≤ matched ≤ totalScraped`; in the transactional path, `matched`
counts exactly the listings for which the matcher finds a canonical
product, and `inserted` counts exactly the matched listings whose upsert
statement succeeded. -/
theorem runStats_counter_invariants (env : ScrapeEnv) (slug : String) (w : World) :
    ((runStoreScape env slug w).2.inserted ≤ (runStoreScape env slug w).2.matched ∧
      (runStoreScape env slug w).2.matched ≤ (runStoreScape env slug w).2.totalScraped) ∧
    (∀ sid, scrapeAllModel env slug ≠ [] →
      lookupStore w.db.storeIds slug = some sid → sid ≠ 0 →
      (runStoreScape env slug w).2.matched
          = (scrapeAllModel env slug).countP (matchesSome w.db.products) ∧
      (runStoreScape env slug w).2.inserted
          = (upsertedKeys env w.db.products sid (scrapeAllModel env slug)).length) := by
  unfold runStoreScape
  cases hraw : decide (scrapeAllModel env slug = []) with
  | true =>
    have h : scrapeAllModel env slug = [] := of_decide_eq_true hraw
    simp [h]
  | false =>
    have h : ¬ scrapeAllModel env slug = [] := of_decide_eq_false hraw
    simp only [if_neg h]
    cases hl : lookupStore w.db.storeIds slug with
    | none => simp [hl]
    | some sid =>
      by_cases h0 : sid = 0
      · subst h0; simp [hl]
      · simp only [hl, if_neg h0]
        obtain ⟨h1, h2, h3'⟩ := foldl_process_counts env w.db.products sid
          (scrapeAllModel env slug) ⟨markStale env.now sid w.db.prices, 0, 0, 0, false⟩
        have h3 : ((scrapeAllModel env slug).foldl (processListing env w.db.products sid)
            ⟨markStale env.now sid w.db.prices, 0, 0, 0, false⟩).inserted
            = (upsertedKeys env w.db.products sid (scrapeAllModel env slug)).length := by
          simpa using h3'
        simp only at h1 h2 h3
        constructor
        · constructor
          · omega
          · simp only [h1]
            simpa using List.countP_le_length (l := scrapeAllModel env slug)
              (p := matchesSome w.db.products)
        · intro sid' _ hl' h0'
          have hsid : sid' = sid := (Option.some.inj hl').symm
          subst hsid
          exact ⟨by simpa using h1, by simpa using h3⟩

/-- **C10** witness: the counter identities at a concrete successful
run. -/
theorem runStats_counter_invariants_witness :
    ((runStoreScape envOk "lenta" wC5).2.matched
        = (scrapeAllModel envOk "lenta").countP (matchesSome wC5.db.products) ∧
      (runStoreScape envOk "lenta" wC5).2.inserted
        = (upsertedKeys envOk wC5.db.products 1 (scrapeAllModel envOk "lenta")).length) ∧
    (runStoreScape envOk "lenta" wC5).2.inserted = 1 :=
  ⟨(runStats_counter_invariants envOk "lenta" wC5).2 1 (by decide) (by decide) (by decide),
   by decide⟩

/-! ## Lemmas: mark-stale and rediscovery -/

theorem mem_upsertRow_of_ne {prices : List PriceRow} {r row : PriceRow}
    (hr : r ∈ prices) (hne : ¬ (r.productId = row.productId ∧ r.storeId = row.storeId)) :
    r ∈ upsertRow prices row := by
  unfold upsertRow
  split
  · refine List.mem_map.2 ⟨r, hr, ?_⟩
    simp [hne]
  · exact List.mem_append_left _ hr

theorem foldl_process_preserves (env : ScrapeEnv) (cs : List CanonicalProduct) (sid : Nat) :
    ∀ (raws : List ScrapedProduct) (st : TxState) (r : PriceRow),
      r ∈ st.prices →
      (r.productId, r.storeId) ∉ upsertedKeys env cs sid raws →
      r ∈ (raws.foldl (processListing env cs sid) st).prices := by
  intro raws
  induction raws with
  | nil => intro st r hr _; exact hr
  | cons raw rest ih =>
    intro st r hr hk
    cases hab : st.aborted with
    | true =>
      rw [(foldl_process_frozen env cs sid (raw :: rest) st hab).1]
      exact hr
    | false =>
      have hcons : (raw :: rest).foldl (processListing env cs sid) st
          = rest.foldl (processListing env cs sid) (processListing env cs sid st raw) := rfl
      rw [hcons]
      cases hm : findBestMatch raw.storeProductName cs with
      | none =>
        have hst : processListing env cs sid st raw = st := by
          unfold processListing
          rw [hm]
        have hk' : (r.productId, r.storeId) ∉ upsertedKeys env cs sid rest := by
          intro hmem
          apply hk
          unfold upsertedKeys
          rw [hm]
          exact hmem
        rw [hst]
        exact ih st r hr hk'
      | some m =>
        by_cases hu : upsertSucceeds env (matchRow env.now sid m raw) = true
        · have hst : processListing env cs sid st raw
              = ⟨upsertRow st.prices (matchRow env.now sid m raw), st.matched + 1,
                 st.inserted + 1, st.errors, false⟩ := by
            unfold processListing
            rw [hm]
            simp [hab, hu]
          have hkeys : upsertedKeys env cs sid (raw :: rest)
              = ((matchRow env.now sid m raw).productId,
                 (matchRow env.now sid m raw).storeId) :: upsertedKeys env cs sid rest := by
            simp only [upsertedKeys]
            rw [hm]
            simp [hu]
          rw [hkeys] at hk
          rw [List.mem_cons] at hk
          push_neg at hk
          rw [hst]
          refine ih _ r ?_ hk.2
          exact mem_upsertRow_of_ne hr (by
            intro hcontra
            exact hk.1 (by
              rw [Prod.mk.injEq]
              exact ⟨hcontra.1, hcontra.2⟩))
        · have hstp : (processListing env cs sid st raw).prices = st.prices := by
            unfold processListing
            rw [hm]
            simp [hab, hu]
          have hsta : (processListing env cs sid st raw).aborted = true := by
            unfold processListing
            rw [hm]
            simp [hab, hu]
          rw [(foldl_process_frozen env cs sid rest _ hsta).1, hstp]
          exact hr

theorem mem_markStale {prices : List PriceRow} {r : PriceRow} (now : Int) {sid : Nat}
    (hr : r ∈ prices) (hs : r.storeId = sid) :
    { r with scrapedAt := now - sevenDaysMs } ∈ markStale now sid prices := by
  unfold markStale
  refine List.mem_map.2 ⟨r, hr, ?_⟩
  simp [hs]

/-- **C3** (amended) A run whose adapter yields zero listings returns
before the transaction and leaves every record untouched.  A run with at
least one listing and a resolved store id in which some matched
listing's upsert statement fails has its whole savepointless transaction
silently rolled back at `COMMIT` — mark-stale included — leaving the
prices table untouched.  For a run with at least one listing whose
transaction commits (no row-level failure occurred), every existing
`PriceRecord` of that store that the run fails to rediscover ends with
`scraped_at = NOW() − 7 days` — strictly older than before exactly when
the record was previously newer than that — and is excluded from every
freshness read filter whose `maxAge` is smaller than the 7-day push-back
window. -/
theorem markStale_pushback_excludes_unrediscovered (env : ScrapeEnv) (w : World) (slug : String) :
    (scrapeAllModel env slug = [] → (runStoreScape env slug w).1 = w) ∧
    (∀ sid, lookupStore w.db.storeIds slug = some sid → sid ≠ 0 →
      scrapeAllModel env slug ≠ [] →
      rowFailure env w.db.products sid (scrapeAllModel env slug) = true →
      (runStoreScape env slug w).1.db.prices = w.db.prices) ∧
    (∀ sid, lookupStore w.db.storeIds slug = some sid → sid ≠ 0 →
      scrapeAllModel env slug ≠ [] →
      rowFailure env w.db.products sid (scrapeAllModel env slug) = false →
      ∀ r ∈ w.db.prices, r.storeId = sid →
        (r.productId, sid) ∉ upsertedKeys env w.db.products sid (scrapeAllModel env slug) →
        ∃ r' ∈ (runStoreScape env slug w).1.db.prices,
          r'.productId = r.productId ∧ r'.storeId = sid ∧
          r'.scrapedAt = env.now - sevenDaysMs ∧
          (env.now - sevenDaysMs < r.scrapedAt → r'.scrapedAt < r.scrapedAt) ∧
          (∀ maxAge : Int, maxAge < sevenDaysMs → isFresh env.now maxAge r' = false)) := by
  refine ⟨?_, ?_, ?_⟩
  · intro h
    unfold runStoreScape
    simp [h]
  · intro sid hl h0 hraw hfail
    unfold runStoreScape
    simp only [if_neg hraw, hl, if_neg h0]
    have hab := foldl_process_aborts env w.db.products sid (scrapeAllModel env slug)
      ⟨markStale env.now sid w.db.prices, 0, 0, 0, false⟩ hfail
    simp [hab]
  · intro sid hl h0 hraw hok r hr hsid hk
    refine ⟨{ r with scrapedAt := env.now - sevenDaysMs }, ?_, rfl, hsid, rfl, ?_, ?_⟩
    · unfold runStoreScape
      simp only [if_neg hraw, hl, if_neg h0]
      have hcommit := foldl_process_commits env w.db.products sid (scrapeAllModel env slug)
        ⟨markStale env.now sid w.db.prices, 0, 0, 0, false⟩ hok rfl
      have hmem := @mem_markStale w.db.prices _ env.now _ hr hsid
      have hpres := foldl_process_preserves env w.db.products sid (scrapeAllModel env slug)
        ⟨markStale env.now sid w.db.prices, 0, 0, 0, false⟩
        { r with scrapedAt := env.now - sevenDaysMs } hmem (by simpa [hsid] using hk)
      simpa [hcommit] using hpres
    · intro hnew
      simpa using hnew
    · intro maxAge hma
      simp only [isFresh]
      simp only [decide_eq_false_iff_not, not_lt]
      omega

/-- **C3** counterexample to the claim as stated: a Lenta run whose
adapter yields zero listings leaves the store's stale record with its old
`scraped_at` — it is not pushed further into the past. -/
theorem staleness_zero_listing_cx :
    scrapeAllModel envC3 "lenta" = [] ∧
    (runStoreScape envC3 "lenta" wC3).1 = wC3 ∧
    ∃ r ∈ wC3.db.prices, r.storeId = 1 ∧
      ∀ r' ∈ (runStoreScape envC3 "lenta" wC3).1.db.prices,
        r'.productId = r.productId → r'.storeId = r.storeId →
        ¬ r'.scrapedAt < r.scrapedAt := by
  refine ⟨by decide, by decide, by decide⟩

/-- **C3** witness: the amended theorem at a concrete committing run with
one listing, applied to a pre-existing record the run does not
rediscover; and the rollback conjunct at a concrete run whose single
upsert fails. -/
theorem markStale_pushback_excludes_unrediscovered_witness :
    (∃ r' ∈ (runStoreScape envOk "lenta" wC3W).1.db.prices,
      r'.productId = 9 ∧ r'.storeId = 1 ∧
      r'.scrapedAt = envOk.now - sevenDaysMs ∧
      (envOk.now - sevenDaysMs < (999 : Int) → r'.scrapedAt < 999) ∧
      (∀ maxAge : Int, maxAge < sevenDaysMs → isFresh envOk.now maxAge r' = false)) ∧
    (runStoreScape envRowFail "lenta" wC3).1.db.prices = wC3.db.prices := by
  constructor
  · exact (markStale_pushback_excludes_unrediscovered envOk wC3W "lenta").2.2 1
      (by decide) (by decide) (by decide) (by decide) ⟨9, 1, 5, none, "Хлеб", "u", 999⟩
      (by decide) (by decide) (by decide)
  · exact (markStale_pushback_excludes_unrediscovered envRowFail wC3 "lenta").2.1 1
      (by decide) (by decide) (by decide) (by decide)

/-! ## Lemmas: the sweep -/

theorem runStoreScape_store (env : ScrapeEnv) (slug : String) (w : World) :
    ((runStoreScape env slug w).2).store = slug := by
  unfold runStoreScape
  by_cases hraw : scrapeAllModel env slug = []
  · simp [hraw]
  · simp only [if_neg hraw]
    cases hl : lookupStore w.db.storeIds slug with
    | none => simp
    | some sid => by_cases h0 : sid = 0 <;> simp [h0]

theorem sweepAux_map_store (env : ScrapeEnv) :
    ∀ (slugs : List String) (w : World),
      ((sweepAux env slugs w).2).map (·.store) = slugs := by
  intro slugs
  induction slugs with
  | nil => intro w; rfl
  | cons a rest ih =>
    intro w
    simp only [sweepAux, List.map_cons, ih, runStoreScape_store]

theorem sweepAux_entry (env : ScrapeEnv) :
    ∀ (slugs : List String) (w : World) (s : RunStats),
      s ∈ (sweepAux env slugs w).2 →
      ∃ w', s = (runStoreScape env s.store w').2 := by
  intro slugs
  induction slugs with
  | nil => intro w s h; simp [sweepAux] at h
  | cons a rest ih =>
    intro w s h
    simp only [sweepAux, List.mem_cons] at h
    rcases h with h | h
    · refine ⟨w, ?_⟩
      rw [h, runStoreScape_store]
    · exact ih _ s h

theorem runStoreScape_scrape_error (env : ScrapeEnv) (b : String) (e : String)
    (hb : env.scrape b = .error e) (w : World) :
    runStoreScape env b w = (w, ⟨b, 0, 0, 0, 0⟩) := by
  have h : scrapeAllModel env b = [] := by simp [scrapeAllModel, hb]
  unfold runStoreScape
  simp [h]

theorem sweepAux_skip (env : ScrapeEnv) (b : String)
    (hb : ∀ w', runStoreScape env b w' = (w', ⟨b, 0, 0, 0, 0⟩)) :
    ∀ (slugs : List String) (w : World),
      (sweepAux env slugs w).1 = (sweepAux env (slugs.filter (fun s => s ≠ b)) w).1 := by
  intro slugs
  induction slugs with
  | nil => intro w; rfl
  | cons a rest ih =>
    intro w
    by_cases hab : a = b
    · subst hab
      simp only [sweepAux, hb w, List.filter_cons]
      simpa using ih w
    · simp only [sweepAux, List.filter_cons]
      have : (decide (a ≠ b)) = true := by simp [hab]
      rw [this]
      simp only [sweepAux]
      exact ih _

/-- **C2** (amended) A sweep returns exactly one `RunStats` entry per
store it iterates, in `STORE_SLUGS` order, and never propagates an
exception.  A store whose adapter always throws reports `totalScraped =
matched = inserted = 0` and `errors = 0` (the adapter failure is
swallowed by `scrapeAll`, which returns an empty listing sequence), it
leaves the world untouched, and the remaining stores' runs proceed
exactly as if the failed store were absent. -/
theorem sweep_entry_per_store_isolated (env : ScrapeEnv) (w : World) (b e : String)
    (hb : env.scrape b = .error e) :
    ((runScrapeNow env w).2.map (·.store) = STORE_SLUGS) ∧
    (∀ s ∈ (runScrapeNow env w).2, s.store = b → s = ⟨b, 0, 0, 0, 0⟩) ∧
    (∀ w', runStoreScape env b w' = (w', ⟨b, 0, 0, 0, 0⟩)) ∧
    ((runScrapeNow env w).1 = (sweepAux env (STORE_SLUGS.filter (fun s => s ≠ b)) w).1) := by
  have hz := runStoreScape_scrape_error env b e hb
  refine ⟨sweepAux_map_store env _ w, ?_, hz, sweepAux_skip env b hz _ w⟩
  intro s hs hsb
  obtain ⟨w', hw'⟩ := sweepAux_entry env STORE_SLUGS w s hs
  rw [hw', hsb] at *
  rw [hz w']

/-- **C2** counterexample to the claim as stated: with Perekrestok's
adapter always throwing, the sweep's entry for Perekrestok reports
`errors = 0`, not `errors > 0`. -/
theorem sweep_adapter_failure_zero_errors_cx :
    envC2.scrape "perekrestok" = .error "blocked" ∧
    ¬ (∀ s ∈ (runScrapeNow envC2 wC2).2, s.store = "perekrestok" → 0 < s.errors) := by
  constructor
  · rfl
  · decide

/-- **C2** witness: the amended theorem applied to the concrete
environment; the surviving stores insert rows. -/
theorem sweep_entry_per_store_isolated_witness :
    ((runScrapeNow envC2 wC2).2.map (·.store) = STORE_SLUGS ∧
      (∀ s ∈ (runScrapeNow envC2 wC2).2, s.store = "perekrestok" → s = ⟨"perekrestok", 0, 0, 0, 0⟩)) ∧
    (∃ s ∈ (runScrapeNow envC2 wC2).2, s.store = "lenta" ∧ s.inserted = 1) ∧
    (∃ s ∈ (runScrapeNow envC2 wC2).2, s.store = "vkusvill" ∧ s.inserted = 1) := by
  refine ⟨?_, by decide, by decide⟩
  have h := sweep_entry_per_store_isolated envC2 wC2 "perekrestok" "blocked" rfl
  exact ⟨h.1, h.2.1⟩

/-- **C5** The repository's `runScrapeNow` declares no parameter, so the
subset argument passed by `POST /api/scrape/:store` is silently dropped:
requesting only `magnit` still sweeps all five stores, returns five
entries, and persists rows for stores outside the subset. -/
theorem single_store_request_sweeps_all_stores :
    ((runScrapeNowWithSlugs ["magnit"] envOk wC5).2.map (·.store) = STORE_SLUGS) ∧
    ((runScrapeNowWithSlugs ["magnit"] envOk wC5).2.length = 5) ∧
    (∃ r ∈ (runScrapeNowWithSlugs ["magnit"] envOk wC5).1.db.prices, r.storeId = 1) ∧
    ((runScrapeNowWithSlugs ["magnit"] envOk wC5).1.db.prices ≠ wC5.db.prices) := by
  refine ⟨by decide, by decide, by decide, by decide⟩

/-! ## Lemmas: glob matching and cache keys -/

theorem globMatchGo_literal :
    ∀ (fuel : Nat) (lit s : List Char), (∀ c ∈ lit, c ≠ '*' ∧ c ≠ '?') →
      globMatchGo fuel lit s = true → s = lit := by
  intro fuel
  induction fuel with
  | zero => intro lit s _ h; simp [globMatchGo] at h
  | succ fuel ih =>
    intro lit s hlit h
    cases lit with
    | nil =>
      simp only [globMatchGo, List.isEmpty_iff] at h
      exact h
    | cons p ps =>
      have hp := hlit p (by simp)
      simp only [globMatchGo, if_neg hp.1] at h
      cases s with
      | nil => simp at h
      | cons c cs =>
        simp only [Bool.and_eq_true, Bool.or_eq_true] at h
        obtain ⟨hpc, hrest⟩ := h
        have hc : p = c := by
          rcases hpc with h' | h'
          · exact absurd (by simpa using h') hp.2
          · simpa using h'
        have := ih ps cs (fun c hc => hlit c (by simp [hc])) hrest
        rw [this, hc]

theorem globMatchGo_star (l2 : List Char) (hl2 : ∀ c ∈ l2, c ≠ '*' ∧ c ≠ '?') :
    ∀ (fuel : Nat) (s : List Char),
      globMatchGo fuel ('*' :: l2) s = true → ∃ x, s = x ++ l2 := by
  intro fuel
  induction fuel with
  | zero => intro s h; simp [globMatchGo] at h
  | succ fuel ih =>
    intro s h
    cases hgo : globMatchGo fuel l2 s with
    | true => exact ⟨[], by rw [globMatchGo_literal fuel l2 s hl2 hgo]; simp⟩
    | false =>
      cases s with
      | nil => simp [globMatchGo, hgo] at h
      | cons c cs =>
        have h3 : globMatchGo fuel ('*' :: l2) cs = true := by
          simpa [globMatchGo, hgo] using h
        obtain ⟨x, hx⟩ := ih cs h3
        exact ⟨c :: x, by rw [hx]; simp⟩

theorem globMatchGo_lit_star (l2 : List Char) (hl2 : ∀ c ∈ l2, c ≠ '*' ∧ c ≠ '?') :
    ∀ (l1 : List Char), (∀ c ∈ l1, c ≠ '*' ∧ c ≠ '?') →
      ∀ (fuel : Nat) (s : List Char),
        globMatchGo fuel (l1 ++ '*' :: l2) s = true → ∃ x, s = l1 ++ (x ++ l2) := by
  intro l1
  induction l1 with
  | nil =>
    intro _ fuel s h
    simpa using globMatchGo_star l2 hl2 fuel s h
  | cons a l1' ih =>
    intro hl1 fuel s h
    cases fuel with
    | zero => simp [globMatchGo] at h
    | succ fuel =>
      have ha := hl1 a (by simp)
      simp only [List.cons_append, globMatchGo, if_neg ha.1] at h
      cases s with
      | nil => simp at h
      | cons c cs =>
        simp only [Bool.and_eq_true, Bool.or_eq_true] at h
        obtain ⟨hac, hrest⟩ := h
        have hc : a = c := by
          rcases hac with h' | h'
          · exact absurd (by simpa using h') ha.2
          · simpa using h'
        obtain ⟨x, hx⟩ := ih (fun c hc => hl1 c (by simp [hc])) fuel cs hrest
        exact ⟨x, by rw [hx, hc]; simp⟩

theorem natDigitsGo_chars :
    ∀ (fuel n : Nat) (acc : List Char) (c : Char), c ∈ natDigitsGo fuel n acc →
      c ∈ acc ∨ (48 ≤ c.toNat ∧ c.toNat ≤ 57) := by
  intro fuel
  induction fuel with
  | zero => intro n acc c h; exact Or.inl h
  | succ fuel ih =>
    intro n acc c h
    have hd : ∀ m : Nat, m < 10 → (Char.ofNat (m + 48)).toNat = m + 48 := by
      intro m hm
      interval_cases m <;> decide
    have hlt : n % 10 < 10 := Nat.mod_lt _ (by norm_num)
    simp only [natDigitsGo] at h
    by_cases h10 : n < 10
    · rw [if_pos h10] at h
      rcases List.mem_cons.1 h with h' | h'
      · right
        rw [h', hd _ hlt]
        omega
      · exact Or.inl h'
    · rw [if_neg h10] at h
      rcases ih (n / 10) _ c h with h' | h'
      · rcases List.mem_cons.1 h' with h'' | h''
        · right
          rw [h'', hd _ hlt]
          omega
        · exact Or.inl h''
      · exact Or.inr h'

theorem natToStr_chars (n : Nat) (c : Char) (h : c ∈ natToStr n) :
    48 ≤ c.toNat ∧ c.toNat ≤ 57 := by
  rcases natDigitsGo_chars (n + 1) n [] c h with h' | h'
  · simp at h'
  · exact h'

theorem joinComma_chars :
    ∀ (L : List (List Char)) (c : Char), c ∈ joinComma L →
      (∃ l ∈ L, c ∈ l) ∨ c = ',' := by
  intro L
  induction L with
  | nil => intro c h; simp [joinComma] at h
  | cons x t ih =>
    intro c h
    cases t with
    | nil =>
      simp only [joinComma] at h
      exact Or.inl ⟨x, by simp, h⟩
    | cons y t' =>
      simp only [joinComma, List.mem_append, List.mem_cons] at h
      rcases h with h | h | h
      · exact Or.inl ⟨x, by simp, h⟩
      · exact Or.inr h
      · rcases ih c h with ⟨l, hl, hc⟩ | h'
        · exact Or.inl ⟨l, by simp [hl], hc⟩
        · exact Or.inr h'

theorem pricesCacheKey_no_colon (ids : List Nat) :
    (':' : Char) ∉ joinComma ((ids.insertionSort (· ≤ ·)).map natToStr) := by
  intro hmem
  rcases joinComma_chars _ ':' hmem with ⟨l, hl, hc⟩ | h
  · obtain ⟨n, _, hn⟩ := List.mem_map.1 hl
    have := natToStr_chars n ':' (hn ▸ hc)
    simp at this
  · simp at h

/-- **C4** The cache entries written by the price read path have keys of
the form `prices:<sortedProductIds.join(',')>`, which never match the
invalidation pattern `prices:*:<storeId>` (that pattern requires a second
`:` that read-path keys do not contain): the run's pattern-scan deletes
none of them.  Evaluated at the failing input: after a committed Lenta
run, the read-path entry for product set `[1]` — whose cached rows
include Lenta's price — survives invalidation. -/
theorem cache_invalidation_never_matches_read_keys :
    (∀ (storeId : Nat) (ids : List Nat),
      globMatch (invalidationPattern storeId) (pricesCacheKey ids) = false) ∧
    ((runStoreScape envOk "lenta" wC4).1.cacheKeys = [⟨pricesCacheKey [1]⟩]) ∧
    ((runStoreScape envOk "lenta" wC4).2.inserted = 1) := by
  refine ⟨?_, by decide, by decide⟩
  intro storeId ids
  by_contra hne
  have hb : globMatch (invalidationPattern storeId) (pricesCacheKey ids) = true := by
    revert hne
    cases globMatch (invalidationPattern storeId) (pricesCacheKey ids) <;> simp
  unfold globMatch at hb
  have hpat : invalidationPattern storeId
      = "prices:".data ++ '*' :: (':' :: natToStr storeId) := by
    show "prices:*:".data ++ natToStr storeId = _
    have : "prices:*:".data = "prices:".data ++ ['*', ':'] := by decide
    rw [this]
    simp
  rw [hpat] at hb
  have hl2 : ∀ c ∈ ':' :: natToStr storeId, c ≠ '*' ∧ c ≠ '?' := by
    intro c hc
    rcases List.mem_cons.1 hc with h | h
    · subst h; constructor <;> decide
    · have := natToStr_chars storeId c h
      constructor <;> · intro h'; subst h'; simp at this
  have hl1 : ∀ c ∈ "prices:".data, c ≠ '*' ∧ c ≠ '?' := by decide
  obtain ⟨x, hx⟩ := globMatchGo_lit_star _ hl2 _ hl1 _ _ hb
  unfold pricesCacheKey at hx
  have hbody : joinComma ((ids.insertionSort (· ≤ ·)).map natToStr)
      = x ++ (':' :: natToStr storeId) := by
    have := hx
    rwa [List.append_cancel_left_eq] at this
  have : (':' : Char) ∈ joinComma ((ids.insertionSort (· ≤ ·)).map natToStr) := by
    rw [hbody]
    simp
  exact pricesCacheKey_no_colon ids this

/-! ## Lemmas: price positivity -/

theorem mem_upsertRow {prices : List PriceRow} {row r' : PriceRow}
    (h : r' ∈ upsertRow prices row) : r' = row ∨ r' ∈ prices := by
  unfold upsertRow at h
  split at h
  · obtain ⟨r, hr, hrr⟩ := List.mem_map.1 h
    by_cases hk : r.productId = row.productId ∧ r.storeId = row.storeId
    · rw [if_pos hk] at hrr
      exact Or.inl hrr.symm
    · rw [if_neg hk] at hrr
      exact Or.inr (hrr ▸ hr)
  · rcases List.mem_append.1 h with h' | h'
    · exact Or.inr h'
    · exact Or.inl (by simpa using h')

theorem mem_markStale_src {prices : List PriceRow} {r' : PriceRow} {now : Int} {sid : Nat}
    (h : r' ∈ markStale now sid prices) : ∃ r ∈ prices, r'.price = r.price := by
  unfold markStale at h
  obtain ⟨r, hr, hrr⟩ := List.mem_map.1 h
  refine ⟨r, hr, ?_⟩
  by_cases hs : r.storeId = sid
  · rw [if_pos hs] at hrr; rw [← hrr]
  · rw [if_neg hs] at hrr; rw [← hrr]

theorem foldl_process_price_pos (env : ScrapeEnv) (cs : List CanonicalProduct) (sid : Nat) :
    ∀ (raws : List ScrapedProduct) (st : TxState),
      (∀ r ∈ st.prices, 0 < r.price) →
      ∀ r ∈ (raws.foldl (processListing env cs sid) st).prices, 0 < r.price := by
  intro raws
  induction raws with
  | nil => intro st h; exact h
  | cons raw rest ih =>
    intro st h
    have hcons : (raw :: rest).foldl (processListing env cs sid) st
        = rest.foldl (processListing env cs sid) (processListing env cs sid st raw) := rfl
    rw [hcons]
    refine ih _ ?_
    cases hm : findBestMatch raw.storeProductName cs with
    | none =>
      have hst : processListing env cs sid st raw = st := by
        unfold processListing
        rw [hm]
      rw [hst]
      exact h
    | some m =>
      cases hab : st.aborted with
      | true =>
        have hst : processListing env cs sid st raw
            = ⟨st.prices, st.matched + 1, st.inserted, st.errors + 1, true⟩ := by
          unfold processListing
          rw [hm]
          simp [hab]
        rw [hst]
        exact h
      | false =>
        by_cases hu : upsertSucceeds env (matchRow env.now sid m raw) = true
        · have hst : processListing env cs sid st raw
              = ⟨upsertRow st.prices (matchRow env.now sid m raw), st.matched + 1,
                 st.inserted + 1, st.errors, false⟩ := by
            unfold processListing
            rw [hm]
            simp [hab, hu]
          rw [hst]
          intro r hr
          rcases mem_upsertRow hr with h' | h'
          · have : 0 < (matchRow env.now sid m raw).price := by
              simp only [upsertSucceeds, Bool.decide_and, Bool.and_eq_true,
                decide_eq_true_eq] at hu
              exact hu.1
            rw [h']
            exact this
          · exact h r h'
        · have hst : processListing env cs sid st raw
              = ⟨st.prices, st.matched + 1, st.inserted, st.errors + 1, true⟩ := by
            unfold processListing
            rw [hm]
            simp [hab, hu]
          rw [hst]
          exact h

/-- **C7** counterexample to the claim as stated: VkusVill's API strategy
drops only falsy prices (`if (!item.price) continue`), so an item with a
negative price yields a `RawListing` with `price < 0`. -/
theorem vkusvill_api_negative_price_cx :
    vvApiProducts "Молочные продукты" [vvNegItem]
      = [⟨"Сыр", -5, none, "Молочные продукты", vvBaseUrl, none⟩] ∧
    ¬ (∀ p ∈ vvApiProducts "Молочные продукты" [vvNegItem], 0 < p.price) := by
  exact ⟨by decide, by decide⟩

/-- **C7** (amended) Magnit's adapter produces only listings with
`price > 0` (dropping falsy and non-positive raw prices, and dividing
implausibly large values by 100); VkusVill's API strategy guarantees only
`price ≠ 0` (negative prices pass its falsy check); and the persistence
path never stores a row with `price ≤ 0`, because the `prices.price`
column's `CHECK (price > 0)` turns such an upsert into a caught row-level
error. -/
theorem price_positive_invariants :
    (∀ (cid : String) (it : MagnitGood) (p : ScrapedProduct),
      magnitMapGood cid it = some p → 0 < p.price) ∧
    (∀ (cat : String) (it : VvApiItem) (p : ScrapedProduct),
      vvMapItem cat it = some p → p.price ≠ 0) ∧
    (∀ (env : ScrapeEnv) (slug : String) (w : World),
      (∀ r ∈ w.db.prices, 0 < r.price) →
      ∀ r ∈ (runStoreScape env slug w).1.db.prices, 0 < r.price) := by
  refine ⟨?_, ?_, ?_⟩
  · intro cid it p hp
    unfold magnitMapGood at hp
    split at hp
    · exact absurd hp (by simp)
    · cases hpr : it.price with
      | none => rw [hpr] at hp; exact absurd hp (by simp)
      | some rawPrice =>
        rw [hpr] at hp
        simp only at hp
        split at hp
        · exact absurd hp (by simp)
        · rename_i hpos
          push_neg at hpos
          have hp' : p.price = if 50000 < rawPrice then rawPrice / 100 else rawPrice := by
            rw [← Option.some.inj hp]
          rw [hp']
          split
          · positivity
          · exact hpos
  · intro cat it p hp
    unfold vvMapItem at hp
    split at hp
    · exact absurd hp (by simp)
    · rename_i hz
      have hp' : p.price = it.price := by rw [← Option.some.inj hp]
      rw [hp']
      exact hz
  · intro env slug w hw
    unfold runStoreScape
    by_cases hraw : scrapeAllModel env slug = []
    · simpa [hraw] using hw
    · simp only [if_neg hraw]
      cases hl : lookupStore w.db.storeIds slug with
      | none => simpa using hw
      | some sid =>
        by_cases h0 : sid = 0
        · simpa [h0] using hw
        · simp only [if_neg h0]
          intro r hr
          cases habt : ((scrapeAllModel env slug).foldl (processListing env w.db.products sid)
              ⟨markStale env.now sid w.db.prices, 0, 0, 0, false⟩).aborted with
          | true =>
            exact hw r (by simpa [habt] using hr)
          | false =>
            refine foldl_process_price_pos env w.db.products sid (scrapeAllModel env slug)
              ⟨markStale env.now sid w.db.prices, 0, 0, 0, false⟩ ?_ r
              (by simpa [habt] using hr)
            intro r' hr'
            obtain ⟨r0, hr0, hpr⟩ := mem_markStale_src hr'
            rw [hpr]
            exact hw r0 hr0

/-- **C7** witness: the amended invariants at concrete inputs. -/
theorem price_positive_invariants_witness :
    (0 < (⟨"Сыр", 100, none, "4893", "https://magnit.ru/magnit-market/p/syr/", none⟩
        : ScrapedProduct).price) ∧
    ((⟨"Сыр", 100, none, "c", vvBaseUrl, none⟩ : ScrapedProduct).price ≠ 0) ∧
    (∀ r ∈ (runStoreScape envOk "lenta" wC5).1.db.prices, 0 < r.price) :=
  ⟨price_positive_invariants.1 "4893" gM _ (by decide),
   price_positive_invariants.2.1 "c" ⟨"Сыр", none, none, 100, none⟩ _ (by decide),
   price_positive_invariants.2.2 envOk "lenta" wC5 (by decide)⟩

/-! ## Claim C8: fallback strategy order -/

/-- **C8** counterexample to the claim as stated: with Pyaterochka's
search strategy yielding one product (a non-empty result set), the
category-catalog strategy is still invoked (`allProducts.size < 50`) and
its product appears in the adapter's output. -/
theorem pyaterochka_supplement_after_success_cx :
    (pyatEnvCx.searchResults.any fun ps => ps ≠ []) = true ∧
    pB ∈ pyaterochkaScrapeProducts pyatEnvCx ∧
    pB ∉ pyatEnvCx.searchResults.flatten ∧
    pB ∉ pyatEnvCx.specialOffers := by
  exact ⟨by decide, by decide, by decide, by decide⟩

/-- **C8** (amended) Strategies run in a fixed priority order.  VkusVill's
category scrape stops at the API strategy whenever it yields a non-empty
result (the page fallback is not consulted).  Pyaterochka skips the
special-offers fallback once the search strategy returned a non-empty
set — the result is then independent of the special-offers data — and
skips the catalog supplement only when at least 50 unique products were
already collected; below that bound the catalog strategy runs even after
a non-empty higher-priority result. -/
theorem strategy_order_and_early_stop :
    (∀ (e : VvCategoryEnv) (ps : List ScrapedProduct),
      e.apiResult = .ok ps → ps ≠ [] → vkusvillScrapeCategory e = ps) ∧
    (∀ e : PyatEnv, (e.searchResults.any fun ps => ps ≠ []) = true →
      pyaterochkaScrapeProducts e
        = pyaterochkaScrapeProducts ⟨e.searchResults, [], e.catalog⟩) ∧
    (∀ e : PyatEnv, (e.searchResults.any fun ps => ps ≠ []) = true →
      ¬ (e.searchResults.foldl mapSetAll []).length < 50 →
      pyaterochkaScrapeProducts e = ((e.searchResults.foldl mapSetAll []).map Prod.snd)) := by
  refine ⟨?_, ?_, ?_⟩
  · intro e ps hok hne
    unfold vkusvillScrapeCategory
    rw [hok]
    simp [hne]
  · intro e hsw
    unfold pyaterochkaScrapeProducts
    simp only [hsw, if_true]
  · intro e hsw hge
    unfold pyaterochkaScrapeProducts
    simp only [hsw, if_true, if_neg hge]

/-- **C8** witness: the amended statements at concrete environments. -/
theorem strategy_order_and_early_stop_witness :
    vkusvillScrapeCategory ⟨.ok [pA], [pB]⟩ = [pA] ∧
    pyaterochkaScrapeProducts pyatEnvCx
      = pyaterochkaScrapeProducts ⟨pyatEnvCx.searchResults, [], pyatEnvCx.catalog⟩ :=
  ⟨strategy_order_and_early_stop.1 ⟨.ok [pA], [pB]⟩ [pA] rfl (by decide),
   strategy_order_and_early_stop.2.1 pyatEnvCx (by decide)⟩

/-! ## Claim C9: URL deduplication -/

theorem mapSet_fst (k : String) (v : ScrapedProduct) :
    ∀ m : List (String × ScrapedProduct),
      (mapSet m k v).map Prod.fst
        = if k ∈ m.map Prod.fst then m.map Prod.fst
          else m.map Prod.fst ++ [k] := by
  intro m
  induction m with
  | nil => simp [mapSet]
  | cons p t ih =>
    by_cases hk : p.1 = k
    · simp [mapSet, hk]
    · have hk' : ¬ k = p.1 := fun h => hk h.symm
      simp only [mapSet, if_neg hk, List.map_cons, ih, List.mem_cons]
      by_cases hmem : k ∈ t.map Prod.fst
      · simp [hmem, hk']
      · simp [hmem, hk']

theorem mapSet_good (k : String) (v : ScrapedProduct) (hv : v.url = k) :
    ∀ m : List (String × ScrapedProduct),
      (∀ q ∈ m, q.2.url = q.1) → ((m.map Prod.fst).Nodup) →
      (∀ q ∈ mapSet m k v, q.2.url = q.1) ∧ (((mapSet m k v).map Prod.fst).Nodup) := by
  intro m hurl hnd
  constructor
  · induction m with
    | nil => intro q hq; simp [mapSet] at hq; simp [hq, hv]
    | cons p t ih =>
      intro q hq
      by_cases hk : p.1 = k
      · rw [mapSet, if_pos hk] at hq
        rcases List.mem_cons.1 hq with h | h
        · simp [h, hv]
        · exact hurl q (by simp [h])
      · rw [mapSet, if_neg hk] at hq
        rcases List.mem_cons.1 hq with h | h
        · exact hurl q (by simp [h])
        · exact ih (fun q' hq' => hurl q' (by simp [hq'])) (by
            simpa using (List.nodup_cons.1 (by simpa using hnd)).2) q h
  · rw [mapSet_fst]
    split
    · exact hnd
    · rename_i hc
      refine List.Nodup.append hnd (by simp) ?_
      intro a ha hb
      simp only [List.mem_singleton] at hb
      subst hb
      exact hc ha

theorem mapSetAll_good :
    ∀ (ps : List ScrapedProduct) (m : List (String × ScrapedProduct)),
      (∀ q ∈ m, q.2.url = q.1) → ((m.map Prod.fst).Nodup) →
      (∀ q ∈ mapSetAll m ps, q.2.url = q.1) ∧ (((mapSetAll m ps).map Prod.fst).Nodup) := by
  intro ps
  induction ps with
  | nil => intro m h1 h2; exact ⟨h1, h2⟩
  | cons p rest ih =>
    intro m h1 h2
    have step := mapSet_good p.url p rfl m h1 h2
    exact ih (mapSet m p.url p) step.1 step.2

theorem values_url_eq_keys {m : List (String × ScrapedProduct)}
    (h : ∀ q ∈ m, q.2.url = q.1) :
    (m.map Prod.snd).map (·.url) = m.map Prod.fst := by
  rw [List.map_map]
  exact List.map_congr_left fun q hq => h q hq

theorem foldl_mapSetAll_good :
    ∀ (L : List (List ScrapedProduct)) (m : List (String × ScrapedProduct)),
      (∀ q ∈ m, q.2.url = q.1) → ((m.map Prod.fst).Nodup) →
      (∀ q ∈ L.foldl mapSetAll m, q.2.url = q.1) ∧ (((L.foldl mapSetAll m).map Prod.fst).Nodup) := by
  intro L
  induction L with
  | nil => intro m h1 h2; exact ⟨h1, h2⟩
  | cons ps rest ih =>
    intro m h1 h2
    have step := mapSetAll_good ps m h1 h2
    exact ih (mapSetAll m ps) step.1 step.2

theorem assocFind?_cons (p : String × ScrapedProduct) (t : List (String × ScrapedProduct))
    (k' : String) :
    assocFind? (p :: t) k' = if p.1 = k' then some p.2 else assocFind? t k' := by
  simp only [assocFind?, List.find?_cons]
  by_cases h : p.1 = k' <;> simp [h]

theorem assocFind?_mapSet (k : String) (v : ScrapedProduct) :
    ∀ (m : List (String × ScrapedProduct)) (k' : String),
      assocFind? (mapSet m k v) k' = if k' = k then some v else assocFind? m k' := by
  intro m
  induction m with
  | nil =>
    intro k'
    by_cases hk : k' = k
    · simp [mapSet, assocFind?, hk]
    · have hk2 : ¬ k = k' := fun h => hk h.symm
      simp [mapSet, assocFind?, hk, hk2]
  | cons p t ih =>
    intro k'
    by_cases hpk : p.1 = k
    · rw [mapSet, if_pos hpk, assocFind?_cons, assocFind?_cons]
      by_cases hk : k' = k
      · subst hk; simp [hpk]
      · have hk2 : ¬ (k = k') := fun h => hk h.symm
        have hp2 : ¬ (p.1 = k') := by rw [hpk]; exact hk2
        simp [hk, hk2, hp2]
    · rw [mapSet, if_neg hpk, assocFind?_cons, assocFind?_cons, ih]
      by_cases hpk' : p.1 = k'
      · have hk : ¬ (k' = k) := fun h => hpk (by rw [hpk', h])
        simp [hpk', hk]
      · simp [hpk']

theorem assocFind?_mapSetAll :
    ∀ (ps : List ScrapedProduct) (m : List (String × ScrapedProduct)) (k : String),
      assocFind? (mapSetAll m ps) k =
        match ps.reverse.find? (fun p => p.url = k) with
        | some p => some p
        | none => assocFind? m k := by
  intro ps
  induction ps with
  | nil => intro m k; simp [mapSetAll]
  | cons p rest ih =>
    intro m k
    have hstep : mapSetAll m (p :: rest) = mapSetAll (mapSet m p.url p) rest := rfl
    rw [hstep, ih]
    rw [List.reverse_cons, List.find?_append]
    cases hf : rest.reverse.find? (fun q => q.url = k) with
    | some q => simp
    | none =>
      simp only [Option.none_orElse]
      rw [assocFind?_mapSet]
      by_cases hk : p.url = k
      · simp [List.find?_cons, hk]
      · have hk' : ¬ k = p.url := fun h => hk h.symm
        simp [List.find?_cons, hk, hk']

/-- **C9** counterexample to the claim as stated: Magnit's adapter
concatenates per-category results with no URL deduplication, so the same
product appearing in two categories yields two listings with the same
URL. -/
theorem magnit_no_dedup_cx :
    ((magnitScrapeProducts [("4893", [gM]), ("4887", [gM])]).map (·.url)).length = 2 ∧
    ¬ ((magnitScrapeProducts [("4893", [gM]), ("4887", [gM])]).map (·.url)).Nodup := by
  exact ⟨by decide, by decide⟩

/-- **C9** (amended) The Map-based collectors (Pyaterochka across its
three strategies, Lenta across its promo/catalog endpoints) emit at most
one listing per product URL, and the listing kept for a URL is the last
one processed; Magnit's adapter concatenates category results without
deduplication. -/
theorem url_dedup_last_write_wins :
    (∀ e : PyatEnv, ((pyaterochkaScrapeProducts e).map (·.url)).Nodup) ∧
    (∀ e : LentaEnv, ((lentaScrapeProducts e).map (·.url)).Nodup) ∧
    (∀ (ps : List ScrapedProduct) (k : String),
      assocFind? (mapSetAll [] ps) k = ps.reverse.find? (fun p => p.url = k)) := by
  refine ⟨?_, ?_, ?_⟩
  · intro e
    unfold pyaterochkaScrapeProducts
    have h1 := foldl_mapSetAll_good e.searchResults [] (by simp) (by simp)
    have h2 : (∀ q ∈ (if (e.searchResults.any fun ps => ps ≠ []) = true
          then e.searchResults.foldl mapSetAll []
          else mapSetAll (e.searchResults.foldl mapSetAll []) e.specialOffers),
        q.2.url = q.1) ∧
        (((if (e.searchResults.any fun ps => ps ≠ []) = true
          then e.searchResults.foldl mapSetAll []
          else mapSetAll (e.searchResults.foldl mapSetAll []) e.specialOffers).map
            Prod.fst).Nodup) := by
      split
      · exact h1
      · exact mapSetAll_good e.specialOffers _ h1.1 h1.2
    set afterOffers := if (e.searchResults.any fun ps => ps ≠ []) = true
      then e.searchResults.foldl mapSetAll []
      else mapSetAll (e.searchResults.foldl mapSetAll []) e.specialOffers with hao
    have h3 : (∀ q ∈ (if afterOffers.length < 50
          then mapSetAll afterOffers e.catalog else afterOffers), q.2.url = q.1) ∧
        (((if afterOffers.length < 50
          then mapSetAll afterOffers e.catalog else afterOffers).map Prod.fst).Nodup) := by
      split
      · exact mapSetAll_good e.catalog _ h2.1 h2.2
      · exact h2
    rw [values_url_eq_keys h3.1]
    exact h3.2
  · intro e
    unfold lentaScrapeProducts
    have h1 := mapSetAll_good e.promo [] (by simp) (by simp)
    have h3 : (∀ q ∈ (if (mapSetAll [] e.promo).length < 30
          then mapSetAll (mapSetAll [] e.promo) e.catalog else mapSetAll [] e.promo),
        q.2.url = q.1) ∧
        (((if (mapSetAll [] e.promo).length < 30
          then mapSetAll (mapSetAll [] e.promo) e.catalog
          else mapSetAll [] e.promo).map Prod.fst).Nodup) := by
      split
      · exact mapSetAll_good e.catalog _ h1.1 h1.2
      · exact h1
    rw [values_url_eq_keys h3.1]
    exact h3.2
  · intro ps k
    rw [assocFind?_mapSetAll]
    cases ps.reverse.find? (fun p => p.url = k) with
    | some q => rfl
    | none => simp [assocFind?]

/-- **C9** witness: dedup and last-write-wins at a concrete input (two
listings sharing `pA`'s URL; the later one is kept). -/
theorem url_dedup_last_write_wins_witness :
    ((pyaterochkaScrapeProducts pyatEnvCx).map (·.url)).Nodup ∧
    assocFind? (mapSetAll [] [pA, ⟨"Молоко 2", 3, none, "dairy", pA.url, none⟩]) pA.url
      = some ⟨"Молоко 2", 3, none, "dairy", pA.url, none⟩ := by
  refine ⟨url_dedup_last_write_wins.1 pyatEnvCx, ?_⟩
  rw [url_dedup_last_write_wins.2.2]
  decide

/-! ## Lemmas: characters -/

theorem charLe_toNat (a b : Char) : a ≤ b ↔ a.toNat ≤ b.toNat := by
  rw [Char.le_def, UInt32.le_def, BitVec.le_def]
  exact Iff.rfl

theorem charEq_toNat (a b : Char) : a = b ↔ a.toNat = b.toNat := by
  constructor
  · intro h; rw [h]
  · intro h
    apply Char.eq_of_val_eq
    have h2 : a.val.toBitVec = b.val.toBitVec := BitVec.eq_of_toNat_eq h
    cases ha : a.val with
    | mk bv =>
      cases hb : b.val with
      | mk bv' =>
        rw [ha, hb] at h2
        simp only at h2
        rw [h2]

theorem toNat_ofNat_valid {n : Nat} (h : n < 55296) : (Char.ofNat n).toNat = n := by
  simp [Char.ofNat, Nat.isValidChar, h, Char.ofNatAux, Char.toNat, UInt32.toNat]

theorem isDigitCh_iff (c : Char) :
    isDigitCh c = true ↔ 48 ≤ c.toNat ∧ c.toNat ≤ 57 := by
  simp only [isDigitCh, Bool.decide_and, Bool.and_eq_true, decide_eq_true_eq]
  rw [charLe_toNat, charLe_toNat]
  exact Iff.rfl

theorem isWsCh_iff (c : Char) :
    isWsCh c = true ↔
      (c.toNat = 32 ∨ c.toNat = 9 ∨ c.toNat = 10 ∨ c.toNat = 11 ∨ c.toNat = 12 ∨
       c.toNat = 13 ∨ c.toNat = 160 ∨ c.toNat = 5760 ∨
       (8192 ≤ c.toNat ∧ c.toNat ≤ 8202) ∨ c.toNat = 8232 ∨ c.toNat = 8233 ∨
       c.toNat = 8239 ∨ c.toNat = 8287 ∨ c.toNat = 12288 ∨ c.toNat = 65279) := by
  simp only [isWsCh, decide_eq_true_eq]
  rw [charEq_toNat c ' ', charEq_toNat c '\t', charEq_toNat c '\n', charEq_toNat c '\r']
  exact Iff.rfl

theorem isWordCh_iff (c : Char) :
    isWordCh c = true ↔
      ((1072 ≤ c.toNat ∧ c.toNat ≤ 1103) ∨ c.toNat = 1105 ∨
       (97 ≤ c.toNat ∧ c.toNat ≤ 122) ∨ (48 ≤ c.toNat ∧ c.toNat ≤ 57) ∨
       (1040 ≤ c.toNat ∧ c.toNat ≤ 1071) ∨ c.toNat = 1025 ∨
       (65 ≤ c.toNat ∧ c.toNat ≤ 90) ∨ isWsCh c = true) := by
  simp only [isWordCh, decide_eq_true_eq]
  rw [charEq_toNat c 'ё', charEq_toNat c 'Ё']
  constructor
  · intro h
    rcases h with ⟨h1, h2⟩ | h | ⟨h1, h2⟩ | ⟨h1, h2⟩ | ⟨h1, h2⟩ | h | ⟨h1, h2⟩ | h
    · exact Or.inl ⟨(charLe_toNat _ _).1 h1, (charLe_toNat _ _).1 h2⟩
    · exact Or.inr (Or.inl h)
    · exact Or.inr (Or.inr (Or.inl ⟨(charLe_toNat _ _).1 h1, (charLe_toNat _ _).1 h2⟩))
    · exact Or.inr (Or.inr (Or.inr (Or.inl ⟨(charLe_toNat _ _).1 h1, (charLe_toNat _ _).1 h2⟩)))
    · exact Or.inr (Or.inr (Or.inr (Or.inr (Or.inl
        ⟨(charLe_toNat _ _).1 h1, (charLe_toNat _ _).1 h2⟩))))
    · exact Or.inr (Or.inr (Or.inr (Or.inr (Or.inr (Or.inl h)))))
    · exact Or.inr (Or.inr (Or.inr (Or.inr (Or.inr (Or.inr (Or.inl
        ⟨(charLe_toNat _ _).1 h1, (charLe_toNat _ _).1 h2⟩))))))
    · exact Or.inr (Or.inr (Or.inr (Or.inr (Or.inr (Or.inr (Or.inr h))))))
  · intro h
    rcases h with ⟨h1, h2⟩ | h | ⟨h1, h2⟩ | ⟨h1, h2⟩ | ⟨h1, h2⟩ | h | ⟨h1, h2⟩ | h
    · exact Or.inl ⟨(charLe_toNat _ _).2 h1, (charLe_toNat _ _).2 h2⟩
    · exact Or.inr (Or.inl h)
    · exact Or.inr (Or.inr (Or.inl ⟨(charLe_toNat _ _).2 h1, (charLe_toNat _ _).2 h2⟩))
    · exact Or.inr (Or.inr (Or.inr (Or.inl ⟨(charLe_toNat _ _).2 h1, (charLe_toNat _ _).2 h2⟩)))
    · exact Or.inr (Or.inr (Or.inr (Or.inr (Or.inl
        ⟨(charLe_toNat _ _).2 h1, (charLe_toNat _ _).2 h2⟩))))
    · exact Or.inr (Or.inr (Or.inr (Or.inr (Or.inr (Or.inl h)))))
    · exact Or.inr (Or.inr (Or.inr (Or.inr (Or.inr (Or.inr (Or.inl
        ⟨(charLe_toNat _ _).2 h1, (charLe_toNat _ _).2 h2⟩))))))
    · exact Or.inr (Or.inr (Or.inr (Or.inr (Or.inr (Or.inr (Or.inr h))))))

/-- Characters outside the three uppercase ranges are fixed points of
`lowerChar`. -/
theorem lowerChar_fix {c : Char}
    (h1 : ¬ (65 ≤ c.toNat ∧ c.toNat ≤ 90))
    (h2 : ¬ (1040 ≤ c.toNat ∧ c.toNat ≤ 1071))
    (h3 : c.toNat ≠ 1025) : lowerChar c = c := by
  unfold lowerChar
  rw [if_neg, if_neg, if_neg]
  · rw [charEq_toNat]
    exact h3
  · intro hc
    exact h2 ⟨(charLe_toNat _ _).1 hc.1, (charLe_toNat _ _).1 hc.2⟩
  · intro hc
    exact h1 ⟨(charLe_toNat _ _).1 hc.1, (charLe_toNat _ _).1 hc.2⟩

/-- `lowerChar` never outputs a character of the uppercase ranges. -/
theorem lowerChar_not_upper (c : Char) :
    ¬ ((65 ≤ (lowerChar c).toNat ∧ (lowerChar c).toNat ≤ 90) ∨
       (1040 ≤ (lowerChar c).toNat ∧ (lowerChar c).toNat ≤ 1071) ∨
       (lowerChar c).toNat = 1025) := by
  unfold lowerChar
  split
  · rename_i hc
    have hb : c.toNat ≤ 90 := (charLe_toNat _ _).1 hc.2
    have ha : 65 ≤ c.toNat := (charLe_toNat _ _).1 hc.1
    rw [toNat_ofNat_valid (by omega)]
    omega
  · split
    · rename_i hc
      have hb : c.toNat ≤ 1071 := (charLe_toNat _ _).1 hc.2
      have ha : 1040 ≤ c.toNat := (charLe_toNat _ _).1 hc.1
      rw [toNat_ofNat_valid (by omega)]
      omega
    · split
      · intro h
        have : ('ё').toNat = 1105 := rfl
        omega
      · rename_i hA hR hE
        intro h
        rcases h with ⟨h1, h2⟩ | ⟨h1, h2⟩ | h1
        · exact hA ⟨(charLe_toNat _ _).2 h1, (charLe_toNat _ _).2 h2⟩
        · exact hR ⟨(charLe_toNat _ _).2 h1, (charLe_toNat _ _).2 h2⟩
        · exact hE ((charEq_toNat _ _).2 h1)

/-- `lowerChar` is idempotent. -/
theorem lowerChar_idem (c : Char) : lowerChar (lowerChar c) = lowerChar c := by
  have h := lowerChar_not_upper c
  exact lowerChar_fix (fun hc => h (Or.inl hc)) (fun hc => h (Or.inr (Or.inl hc)))
    (fun hc => h (Or.inr (Or.inr hc)))

/-! ## Lemmas: the normalizer's stages -/

theorem mem_dropWhile {p : Char → Bool} : ∀ {l : List Char} {c : Char},
    c ∈ l.dropWhile p → c ∈ l := by
  intro l
  induction l with
  | nil => intro c h; simpa using h
  | cons a t ih =>
    intro c h
    rw [List.dropWhile_cons] at h
    split at h
    · exact List.mem_cons_of_mem a (ih h)
    · exact h

theorem dropWhile_length {p : Char → Bool} : ∀ (l : List Char),
    (l.dropWhile p).length ≤ l.length := by
  intro l
  induction l with
  | nil => simp
  | cons a t ih =>
    rw [List.dropWhile_cons]
    split
    · exact Nat.le_succ_of_le ih
    · simp

theorem isPrefixOf_length : ∀ (u cs : List Char), u.isPrefixOf cs = true →
    u.length ≤ cs.length := by
  intro u
  induction u with
  | nil => intro cs _; simp
  | cons a u' ih =>
    intro cs h
    cases cs with
    | nil => simp [List.isPrefixOf] at h
    | cons c cs' =>
      simp only [List.isPrefixOf, Bool.and_eq_true] at h
      simpa using ih cs' h.2

theorem matchUnit_facts : ∀ (units : List (List Char)) (cs rest : List Char),
    (∀ u ∈ units, u ≠ []) → matchUnit units cs = some rest →
    ((∀ a ∈ rest, a ∈ cs) ∧ rest.length < cs.length) := by
  intro units
  induction units with
  | nil => intro cs rest _ h; simp [matchUnit] at h
  | cons u us ih =>
    intro cs rest hne h
    rw [matchUnit] at h
    split at h
    · rename_i hpre
      have hr : rest = cs.drop u.length := (Option.some.inj h).symm
      have hul : u.length ≤ cs.length := isPrefixOf_length u cs hpre
      have hu0 : u ≠ [] := hne u (by simp)
      have hu1 : 1 ≤ u.length := by
        cases u with
        | nil => exact absurd rfl hu0
        | cons _ _ => simp
      constructor
      · intro a ha
        rw [hr] at ha
        exact List.drop_subset _ _ ha
      · rw [hr, List.length_drop]
        omega
    · exact ih cs rest (fun u' hu' => hne u' (by simp [hu'])) h

theorem qtyTail_facts {cs rest : List Char} (h : qtyTail cs = some rest) :
    (∀ a ∈ rest, a ∈ cs) ∧ rest.length ≤ cs.length := by
  unfold qtyTail at h
  cases hmu : matchUnit qtyUnits (cs.dropWhile isWsCh) with
  | none => rw [hmu] at h; exact absurd h (by simp)
  | some afterUnit =>
    rw [hmu] at h
    have h1 : (∀ a ∈ afterUnit, a ∈ cs.dropWhile isWsCh) ∧
        afterUnit.length < (cs.dropWhile isWsCh).length :=
      matchUnit_facts qtyUnits _ afterUnit (by decide) hmu
    have h1s : ∀ a ∈ afterUnit, a ∈ cs := fun a hx => mem_dropWhile (h1.1 a hx)
    have h1l : afterUnit.length ≤ cs.length :=
      le_trans (le_of_lt h1.2) (dropWhile_length cs)
    have h2s : ∀ a ∈ afterUnit.dropWhile isWsCh, a ∈ cs := fun a hx =>
      h1s a (mem_dropWhile hx)
    have h2l : (afterUnit.dropWhile isWsCh).length ≤ cs.length :=
      le_trans (dropWhile_length afterUnit) h1l
    have h' : (if (afterUnit.dropWhile isWsCh).takeWhile isDigitCh = [] then
        some (afterUnit.dropWhile isWsCh)
      else
        match matchUnit sndUnits
            (((afterUnit.dropWhile isWsCh).dropWhile isDigitCh).dropWhile isWsCh) with
        | some after2 => some after2
        | none => some (afterUnit.dropWhile isWsCh)) = some rest := h
    split at h'
    · rw [← Option.some.inj h']
      exact ⟨h2s, h2l⟩
    · cases hmu2 : matchUnit sndUnits
          (((afterUnit.dropWhile isWsCh).dropWhile isDigitCh).dropWhile isWsCh) with
      | some after2 =>
        rw [hmu2] at h'
        have h3 := matchUnit_facts sndUnits _ after2 (by decide) hmu2
        have h3s : ∀ a ∈ after2, a ∈ cs := fun a hx =>
          h2s a (mem_dropWhile (mem_dropWhile (h3.1 a hx)))
        have h3l : after2.length ≤ cs.length := by
          have h4 := h3.2
          have d1 := dropWhile_length (p := isWsCh)
            ((afterUnit.dropWhile isWsCh).dropWhile isDigitCh)
          have d2 := dropWhile_length (p := isDigitCh) (afterUnit.dropWhile isWsCh)
          omega
        rw [← Option.some.inj h']
        exact ⟨h3s, h3l⟩
      | none =>
        rw [hmu2] at h'
        rw [← Option.some.inj h']
        exact ⟨h2s, h2l⟩

theorem qtyMatch_facts {cs rest : List Char} (h : qtyMatch cs = some rest) :
    (∀ a ∈ rest, a ∈ cs) ∧ rest.length < cs.length := by
  unfold qtyMatch at h
  by_cases htw : cs.takeWhile isDigitCh = []
  · rw [if_pos htw] at h
    exact absurd h (by simp)
  · rw [if_neg htw] at h
    have hlen : 1 ≤ cs.length ∧ (cs.dropWhile isDigitCh).length < cs.length := by
      have hsum := congrArg List.length
        (List.takeWhile_append_dropWhile (p := isDigitCh) (l := cs))
      rw [List.length_append] at hsum
      have htwl : 1 ≤ (cs.takeWhile isDigitCh).length := by
        cases h' : cs.takeWhile isDigitCh with
        | nil => exact absurd h' htw
        | cons _ _ => simp
      omega
    have hsubdrop : ∀ a, a ∈ cs.dropWhile isDigitCh → a ∈ cs := fun a ha =>
      mem_dropWhile ha
    cases hdw : cs.dropWhile isDigitCh with
    | nil =>
      rw [hdw] at h
      have h' : qtyTail [] = some rest := h
      have hq := qtyTail_facts h'
      constructor
      · intro a ha
        exact absurd (hq.1 a ha) (List.not_mem_nil a)
      · have h0 : rest.length ≤ 0 := by simpa using hq.2
        omega
    | cons c r2 =>
      rw [hdw] at h
      have h' : (if c = '.' ∨ c = ',' then qtyTail (r2.dropWhile isDigitCh)
          else qtyTail (c :: r2)) = some rest := h
      have hlen2 : (cs.dropWhile isDigitCh).length = r2.length + 1 := by
        rw [hdw]; simp
      by_cases hsep : c = '.' ∨ c = ','
      · rw [if_pos hsep] at h'
        have hq := qtyTail_facts h'
        have hr2 : ∀ a, a ∈ r2.dropWhile isDigitCh → a ∈ cs := by
          intro a ha
          apply hsubdrop
          rw [hdw]
          exact List.mem_cons_of_mem c (mem_dropWhile ha)
        constructor
        · exact fun a hx => hr2 a (hq.1 a hx)
        · have hd := dropWhile_length (p := isDigitCh) r2
          have hql := hq.2
          omega
      · rw [if_neg hsep] at h'
        have hq := qtyTail_facts h'
        constructor
        · intro a ha
          apply hsubdrop
          rw [hdw]
          exact hq.1 a ha
        · have hql := hq.2
          simp only [List.length_cons] at hql
          omega

theorem stripQtyGo_subset : ∀ (fuel : Nat) (l : List Char) (c : Char),
    c ∈ stripQtyGo fuel l → c ∈ l := by
  intro fuel
  induction fuel with
  | zero =>
    intro l c h
    cases l with
    | nil => simpa [stripQtyGo] using h
    | cons a t => simpa [stripQtyGo] using h
  | succ fuel ih =>
    intro l c h
    cases l with
    | nil => simpa [stripQtyGo] using h
    | cons a t =>
      rw [stripQtyGo] at h
      cases hq : qtyMatch (a :: t) with
      | some rest =>
        rw [hq] at h
        exact (qtyMatch_facts hq).1 c (ih rest c h)
      | none =>
        rw [hq] at h
        rcases List.mem_cons.1 h with h' | h'
        · simp [h']
        · exact List.mem_cons_of_mem a (ih t c h')

theorem stripQtyGo_id_of_no_digit : ∀ (fuel : Nat) (l : List Char),
    (∀ c ∈ l, isDigitCh c = false) → stripQtyGo fuel l = l := by
  intro fuel
  induction fuel with
  | zero =>
    intro l _
    cases l with
    | nil => rfl
    | cons a t => rfl
  | succ fuel ih =>
    intro l hl
    cases l with
    | nil => rfl
    | cons a t =>
      have hq : qtyMatch (a :: t) = none := by
        unfold qtyMatch
        rw [if_pos]
        rw [List.takeWhile_cons]
        simp [hl a (by simp)]
      rw [stripQtyGo, hq]
      rw [ih t (fun c hc => hl c (by simp [hc]))]

theorem mem_punct {l : List Char} {c : Char} (h : c ∈ punctToSpace l) :
    c = ' ' ∨ (c ∈ l ∧ isWordCh c = true) := by
  unfold punctToSpace at h
  obtain ⟨a, ha, hac⟩ := List.mem_map.1 h
  by_cases hw : isWordCh a = true
  · rw [if_pos hw] at hac
    exact Or.inr ⟨hac ▸ ha, hac ▸ hw⟩
  · rw [if_neg hw] at hac
    exact Or.inl hac.symm

theorem punct_id {l : List Char} (h : ∀ c ∈ l, isWordCh c = true) :
    punctToSpace l = l := by
  unfold punctToSpace
  rw [List.map_congr_left (g := id) (fun a ha => by rw [if_pos (h a ha)]; rfl)]
  exact List.map_id l

theorem noAdjWs_tail {c : Char} {l : List Char} (h : noAdjWs (c :: l)) : noAdjWs l := by
  cases l with
  | nil => trivial
  | cons a t => exact h.2

theorem noAdjWs_cons {c : Char} {l : List Char}
    (h1 : ∀ a, l.head? = some a → ¬ (isWsCh c = true ∧ isWsCh a = true))
    (h2 : noAdjWs l) : noAdjWs (c :: l) := by
  cases l with
  | nil => trivial
  | cons a t => exact ⟨h1 a rfl, h2⟩

theorem collapseWs_cons (c : Char) (l : List Char) :
    collapseWs (c :: l) = collapseStep c (collapseWs l) := rfl

theorem mem_collapseWs : ∀ (l : List Char) (c : Char),
    c ∈ collapseWs l → c = ' ' ∨ c ∈ l := by
  intro l
  induction l with
  | nil => intro c h; exact absurd h (by simp [collapseWs])
  | cons a t ih =>
    intro c h
    rw [collapseWs_cons] at h
    unfold collapseStep at h
    by_cases hwa : isWsCh a = true
    · rw [if_pos hwa] at h
      cases hc : collapseWs t with
      | nil =>
        rw [hc] at h
        exact Or.inl (by simpa using h)
      | cons b r =>
        rw [hc] at h
        have h2 : c ∈ (if isWsCh b = true then b :: r else ' ' :: (b :: r)) := h
        by_cases hwb : isWsCh b = true
        · rw [if_pos hwb] at h2
          rcases ih c (hc ▸ h2) with h' | h'
          · exact Or.inl h'
          · exact Or.inr (List.mem_cons_of_mem a h')
        · rw [if_neg hwb] at h2
          rcases List.mem_cons.1 h2 with h' | h'
          · exact Or.inl h'
          · rcases ih c (hc ▸ h') with h'' | h''
            · exact Or.inl h''
            · exact Or.inr (List.mem_cons_of_mem a h'')
    · rw [if_neg hwa] at h
      rcases List.mem_cons.1 h with h' | h'
      · exact Or.inr (by simp [h'])
      · rcases ih c h' with h'' | h''
        · exact Or.inl h''
        · exact Or.inr (List.mem_cons_of_mem a h'')

theorem collapseWs_ws_space : ∀ (l : List Char) (c : Char),
    c ∈ collapseWs l → isWsCh c = true → c = ' ' := by
  intro l
  induction l with
  | nil => intro c h _; exact absurd h (by simp [collapseWs])
  | cons a t ih =>
    intro c h hws
    rw [collapseWs_cons] at h
    unfold collapseStep at h
    by_cases hwa : isWsCh a = true
    · rw [if_pos hwa] at h
      cases hc : collapseWs t with
      | nil =>
        rw [hc] at h
        simpa using h
      | cons b r =>
        rw [hc] at h
        have h2 : c ∈ (if isWsCh b = true then b :: r else ' ' :: (b :: r)) := h
        by_cases hwb : isWsCh b = true
        · rw [if_pos hwb] at h2
          exact ih c (hc ▸ h2) hws
        · rw [if_neg hwb] at h2
          rcases List.mem_cons.1 h2 with h' | h'
          · exact h'
          · exact ih c (hc ▸ h') hws
    · rw [if_neg hwa] at h
      rcases List.mem_cons.1 h with h' | h'
      · rw [h'] at hws
        exact absurd hws (by simpa using hwa)
      · exact ih c h' hws

theorem noAdjWs_collapseWs : ∀ (l : List Char), noAdjWs (collapseWs l) := by
  intro l
  induction l with
  | nil => trivial
  | cons a t ih =>
    rw [collapseWs_cons]
    unfold collapseStep
    by_cases hwa : isWsCh a = true
    · rw [if_pos hwa]
      cases hc : collapseWs t with
      | nil => trivial
      | cons b r =>
        rw [hc] at ih
        show noAdjWs (if isWsCh b = true then b :: r else ' ' :: (b :: r))
        by_cases hwb : isWsCh b = true
        · rw [if_pos hwb]
          exact ih
        · rw [if_neg hwb]
          refine noAdjWs_cons ?_ ih
          intro x hx hcontra
          rw [List.head?_cons] at hx
          rw [← Option.some.inj hx] at hcontra
          exact hwb hcontra.2
    · rw [if_neg hwa]
      refine noAdjWs_cons ?_ ih
      intro x hx hcontra
      exact hwa hcontra.1

theorem collapse_id : ∀ (l : List Char),
    (∀ c ∈ l, isWsCh c = true → c = ' ') → noAdjWs l → collapseWs l = l := by
  intro l
  induction l with
  | nil => intro _ _; rfl
  | cons a t ih =>
    intro hws hadj
    rw [collapseWs_cons, ih (fun c hc h => hws c (by simp [hc]) h) (noAdjWs_tail hadj)]
    unfold collapseStep
    by_cases haws : isWsCh a = true
    · rw [if_pos haws]
      have ha : a = ' ' := hws a (by simp) haws
      cases t with
      | nil => rw [ha]
      | cons b r =>
        have hb : ¬ (isWsCh a = true ∧ isWsCh b = true) := hadj.1
        have hbws : ¬ isWsCh b = true := fun h => hb ⟨haws, h⟩
        show (if isWsCh b = true then b :: r else ' ' :: (b :: r)) = a :: b :: r
        rw [if_neg hbws, ha]
    · rw [if_neg haws]

theorem mem_trimRightWs : ∀ (l : List Char) (c : Char), c ∈ trimRightWs l → c ∈ l := by
  intro l
  induction l with
  | nil => intro c h; exact absurd h (by simp [trimRightWs])
  | cons a t ih =>
    intro c h
    rw [trimRightWs] at h
    cases ht : trimRightWs t with
    | nil =>
      rw [ht] at h
      have h2 : c ∈ (if isWsCh a = true then ([] : List Char) else [a]) := h
      by_cases hwa : isWsCh a = true
      · rw [if_pos hwa] at h2
        exact absurd h2 (by simp)
      · rw [if_neg hwa] at h2
        have : c = a := by simpa using h2
        simp [this]
    | cons b r =>
      rw [ht] at h
      have h2 : c ∈ a :: b :: r := h
      rcases List.mem_cons.1 h2 with h' | h'
      · simp [h']
      · exact List.mem_cons_of_mem a (ih c (ht ▸ h'))

theorem trimRightWs_head? : ∀ (l : List Char),
    trimRightWs l = [] ∨ (trimRightWs l).head? = l.head? := by
  intro l
  cases l with
  | nil => exact Or.inl rfl
  | cons a t =>
    rw [trimRightWs]
    cases ht : trimRightWs t with
    | nil =>
      by_cases hwa : isWsCh a = true
      · left
        show (if isWsCh a = true then ([] : List Char) else [a]) = []
        rw [if_pos hwa]
      · right
        show (if isWsCh a = true then ([] : List Char) else [a]).head? = (a :: t).head?
        rw [if_neg hwa]
        rfl
    | cons b r =>
      right
      rfl

theorem trimRightWs_idem : ∀ (l : List Char), trimRightWs (trimRightWs l) = trimRightWs l := by
  intro l
  induction l with
  | nil => rfl
  | cons a t ih =>
    rw [trimRightWs]
    cases ht : trimRightWs t with
    | nil =>
      by_cases hwa : isWsCh a = true
      · show trimRightWs (if isWsCh a = true then ([] : List Char) else [a])
            = (if isWsCh a = true then ([] : List Char) else [a])
        rw [if_pos hwa]
        rfl
      · show trimRightWs (if isWsCh a = true then ([] : List Char) else [a])
            = (if isWsCh a = true then ([] : List Char) else [a])
        rw [if_neg hwa]
        show (if isWsCh a = true then ([] : List Char) else [a]) = [a]
        rw [if_neg hwa]
    | cons b r =>
      rw [ht] at ih
      show trimRightWs (a :: b :: r) = a :: b :: r
      rw [trimRightWs, ih]

theorem noAdjWs_trimRightWs : ∀ (l : List Char), noAdjWs l → noAdjWs (trimRightWs l) := by
  intro l
  induction l with
  | nil => intro _; trivial
  | cons a t ih =>
    intro h
    rw [trimRightWs]
    cases ht : trimRightWs t with
    | nil =>
      show noAdjWs (if isWsCh a = true then ([] : List Char) else [a])
      by_cases hwa : isWsCh a = true
      · rw [if_pos hwa]
        trivial
      · rw [if_neg hwa]
        trivial
    | cons b r =>
      refine noAdjWs_cons ?_ (ht ▸ ih (noAdjWs_tail h))
      intro x hx
      rw [List.head?_cons] at hx
      rw [← Option.some.inj hx]
      rcases trimRightWs_head? t with h0 | h0
      · rw [h0] at ht; simp at ht
      · rw [ht] at h0
        cases t with
        | nil => simp at h0
        | cons a' t' =>
          rw [List.head?_cons, List.head?_cons] at h0
          have hb : b = a' := Option.some.inj h0
          rw [hb]
          exact h.1

theorem noAdjWs_dropWhile {p : Char → Bool} : ∀ (l : List Char),
    noAdjWs l → noAdjWs (l.dropWhile p) := by
  intro l
  induction l with
  | nil => intro _; trivial
  | cons a t ih =>
    intro h
    rw [List.dropWhile_cons]
    split
    · exact ih (noAdjWs_tail h)
    · exact h

theorem dropWhile_head {p : Char → Bool} : ∀ (l : List Char),
    l.dropWhile p = [] ∨ ∃ c t, l.dropWhile p = c :: t ∧ p c = false := by
  intro l
  induction l with
  | nil => exact Or.inl rfl
  | cons a t ih =>
    rw [List.dropWhile_cons]
    split
    · exact ih
    · rename_i hpa
      exact Or.inr ⟨a, t, rfl, by simpa using hpa⟩

theorem dropWhile_id_of_head {p : Char → Bool} {l : List Char} {c : Char}
    (hh : l.head? = some c) (hp : p c = false) : l.dropWhile p = l := by
  cases l with
  | nil => rfl
  | cons a t =>
    rw [List.head?_cons] at hh
    have ha : a = c := Option.some.inj hh
    rw [List.dropWhile_cons, ha, hp]
    simp

/-- **C6** (amended) `normalizeForComparison` is idempotent on every
input whose normalized form contains no decimal digit: the
punctuation-stripping, whitespace-collapsing and trimming stages are
idempotent, and the quantity-suffix regex can only fire again when a
digit survives the first pass. -/
theorem normalize_idempotent_on_digit_free (s : String)
    (h : ∀ c ∈ (normalizeForComparison s).data, isDigitCh c = false) :
    normalizeForComparison (normalizeForComparison s) = normalizeForComparison s := by
  have hy : (normalizeForComparison s).data
      = trimWs (collapseWs (punctToSpace (stripQty (s.data.map lowerChar)))) := rfl
  have hc1 : ∀ c ∈ (normalizeForComparison s).data,
      c ∈ collapseWs (punctToSpace (stripQty (s.data.map lowerChar))) := by
    intro c hc
    rw [hy] at hc
    exact mem_dropWhile (mem_trimRightWs _ c hc)
  have hmem : ∀ c ∈ (normalizeForComparison s).data,
      c = ' ' ∨ (c ∈ s.data.map lowerChar ∧ isWordCh c = true) := by
    intro c hc
    rcases mem_collapseWs _ c (hc1 c hc) with h' | h'
    · exact Or.inl h'
    · rcases mem_punct h' with h'' | h''
      · exact Or.inl h''
      · exact Or.inr ⟨stripQtyGo_subset _ _ c h''.1, h''.2⟩
  have hwsmem : ∀ c ∈ (normalizeForComparison s).data, isWsCh c = true → c = ' ' := by
    intro c hc hws
    exact collapseWs_ws_space _ c (hc1 c hc) hws
  have hlower : (normalizeForComparison s).data.map lowerChar
      = (normalizeForComparison s).data := by
    have hfix : ∀ c ∈ (normalizeForComparison s).data, lowerChar c = c := by
      intro c hc
      rcases hmem c hc with h' | h'
      · rw [h']
        exact lowerChar_fix (by decide) (by decide) (by decide)
      · obtain ⟨a, _, hac⟩ := List.mem_map.1 h'.1
        rw [← hac]
        exact lowerChar_idem a
    rw [List.map_congr_left (g := id) (fun a ha => hfix a ha)]
    exact List.map_id _
  have hstrip : stripQty (normalizeForComparison s).data
      = (normalizeForComparison s).data :=
    stripQtyGo_id_of_no_digit _ _ h
  have hpunct : punctToSpace (normalizeForComparison s).data
      = (normalizeForComparison s).data := by
    refine punct_id ?_
    intro c hc
    rcases hmem c hc with h' | h'
    · rw [h']; decide
    · exact h'.2
  have hnadj : noAdjWs (normalizeForComparison s).data := by
    rw [hy]
    exact noAdjWs_trimRightWs _ (noAdjWs_dropWhile _ (noAdjWs_collapseWs _))
  have hcollapse : collapseWs (normalizeForComparison s).data
      = (normalizeForComparison s).data :=
    collapse_id _ hwsmem hnadj
  have htrim : trimWs (normalizeForComparison s).data
      = (normalizeForComparison s).data := by
    rw [hy]
    have hstep1 : trimLeftWs (trimRightWs (trimLeftWs
        (collapseWs (punctToSpace (stripQty (s.data.map lowerChar))))))
        = trimRightWs (trimLeftWs
          (collapseWs (punctToSpace (stripQty (s.data.map lowerChar))))) := by
      rcases dropWhile_head (p := isWsCh)
          (collapseWs (punctToSpace (stripQty (s.data.map lowerChar)))) with h0 | ⟨c0, t0, h0, hc0⟩
      · unfold trimLeftWs
        rw [h0]
        rfl
      · unfold trimLeftWs
        rw [h0]
        rcases trimRightWs_head? (c0 :: t0) with h1 | h1
        · rw [h1]
          rfl
        · refine dropWhile_id_of_head ?_ hc0
          rw [h1]
          rfl
    show trimWs (trimRightWs (trimLeftWs _)) = trimRightWs (trimLeftWs _)
    unfold trimWs
    rw [hstep1, trimRightWs_idem]
  show (⟨trimWs (collapseWs (punctToSpace (stripQty
      ((normalizeForComparison s).data.map lowerChar))))⟩ : String)
      = normalizeForComparison s
  rw [hlower, hstrip, hpunct, hcollapse, htrim]

/-- **C6** counterexample to the claim as stated: the quantity regex
deletes `2x` from `"1 2xкг"`, leaving `"1 кг"`, which a second pass
deletes entirely — normalization is not idempotent. -/
theorem normalize_not_idempotent_cx :
    normalizeForComparison "1 2xкг" = "1 кг" ∧
    normalizeForComparison (normalizeForComparison "1 2xкг") = "" ∧
    normalizeForComparison (normalizeForComparison "1 2xкг")
      ≠ normalizeForComparison "1 2xкг" := by
  refine ⟨by decide, by decide, by decide⟩

/-- **C6** witness: the amended theorem at a concrete digit-free input. -/
theorem normalize_idempotent_on_digit_free_witness :
    (∀ c ∈ (normalizeForComparison "Молоко (Пастеризованное)!").data, isDigitCh c = false) ∧
    normalizeForComparison (normalizeForComparison "Молоко (Пастеризованное)!")
      = normalizeForComparison "Молоко (Пастеризованное)!" :=
  ⟨by decide, normalize_idempotent_on_digit_free _ (by decide)⟩

/-! ## Lemmas: the matcher's selection loop -/

theorem normalize_nonempty_nonws (x : String) (h : normalizeForComparison x ≠ "") :
    stripAllWs (normalizeForComparison x).data ≠ [] := by
  have hdata : (normalizeForComparison x).data ≠ [] := by
    intro hd
    apply h
    have : normalizeForComparison x = ⟨(normalizeForComparison x).data⟩ := rfl
    rw [this, hd]
  have hy : (normalizeForComparison x).data
      = trimRightWs (trimLeftWs (collapseWs (punctToSpace (stripQty
          (x.data.map lowerChar))))) := rfl
  rcases dropWhile_head (p := isWsCh)
      (collapseWs (punctToSpace (stripQty (x.data.map lowerChar)))) with h0 | ⟨c0, t0, h0, hc0⟩
  · exfalso
    apply hdata
    rw [hy]
    show trimRightWs (List.dropWhile isWsCh _) = []
    rw [h0]
    rfl
  · have hy2 : (normalizeForComparison x).data = trimRightWs (c0 :: t0) := by
      rw [hy]
      show trimRightWs (List.dropWhile isWsCh _) = _
      rw [h0]
    rcases trimRightWs_head? (c0 :: t0) with h1 | h1
    · exfalso
      apply hdata
      rw [hy2, h1]
    · rw [hy2]
      cases htr : trimRightWs (c0 :: t0) with
      | nil =>
        exfalso
        apply hdata
        rw [hy2, htr]
      | cons b r =>
        rw [htr] at h1
        have hb : b = c0 := by
          rw [List.head?_cons, List.head?_cons] at h1
          exact Option.some.inj h1
        unfold stripAllWs
        rw [List.filter_cons]
        rw [hb]
        simp only [hc0]
        simp

theorem foldl_max_zero : ∀ (xs : List ℚ) (x : ℚ), (∀ a ∈ x :: xs, a = 0) →
    xs.foldl max x = 0 := by
  intro xs
  induction xs with
  | nil =>
    intro x h
    exact h x (by simp)
  | cons y ys ih =>
    intro x h
    rw [List.foldl_cons]
    refine ih (max x y) ?_
    intro a ha
    rcases List.mem_cons.1 ha with h' | h'
    · rw [h', h x (by simp), h y (by simp)]
      simp
    · exact h a (by simp [h'])

theorem mem_candidateStrings {c : CanonicalProduct} {cand : String}
    (h : cand ∈ candidateStrings c) :
    cand ≠ "" ∧ ∃ x, cand = normalizeForComparison x := by
  unfold candidateStrings at h
  rw [List.mem_filter] at h
  refine ⟨by simpa using h.2, ?_⟩
  rcases List.mem_cons.1 h.1 with h' | h'
  · exact ⟨c.name, h'⟩
  · obtain ⟨a, _, ha⟩ := List.mem_map.1 h'
    exact ⟨a, ha.symm⟩

theorem topScore_empty_lt (c : CanonicalProduct) (q : ℚ)
    (h : topScore? "" c = some q) : q < SIMILARITY_THRESHOLD := by
  unfold topScore? at h
  cases hm : (candidateStrings c).map (compareTwoStrings "") with
  | nil => rw [hm] at h; exact absurd h (by simp)
  | cons x xs =>
    rw [hm] at h
    have hall : ∀ a ∈ x :: xs, a = 0 := by
      intro a ha
      rw [← hm] at ha
      obtain ⟨cand, hcand, hac⟩ := List.mem_map.1 ha
      obtain ⟨hne, x', hx'⟩ := mem_candidateStrings hcand
      rw [← hac]
      unfold compareTwoStrings
      have hf : stripAllWs ("" : String).data = [] := rfl
      have hs : stripAllWs cand.data ≠ [] := by
        rw [hx']
        exact normalize_nonempty_nonws x' (hx' ▸ hne)
      rw [if_neg (by rw [hf]; exact fun hc => hs hc.symm)]
      rw [if_pos]
      left
      rw [hf]
      simp
    have hq : q = 0 := by
      rw [← Option.some.inj h]
      exact foldl_max_zero xs x hall
    rw [hq]
    decide

theorem stepBest_cases (nr : String) (acc : Option NormalizedMatch) (c : CanonicalProduct) :
    (topScore? nr c = none ∧ stepBest nr acc c = acc) ∨
    (∃ t, topScore? nr c = some t ∧ ¬ SIMILARITY_THRESHOLD ≤ t ∧ stepBest nr acc c = acc) ∨
    (∃ t, topScore? nr c = some t ∧ SIMILARITY_THRESHOLD ≤ t ∧ acc = none ∧
      stepBest nr acc c = some ⟨c.id, c.name, t⟩) ∨
    (∃ t b0, topScore? nr c = some t ∧ SIMILARITY_THRESHOLD ≤ t ∧ acc = some b0 ∧
      b0.similarity < t ∧ stepBest nr acc c = some ⟨c.id, c.name, t⟩) ∨
    (∃ t b0, topScore? nr c = some t ∧ SIMILARITY_THRESHOLD ≤ t ∧ acc = some b0 ∧
      ¬ b0.similarity < t ∧ stepBest nr acc c = acc) := by
  cases hts : topScore? nr c with
  | none =>
    refine Or.inl ⟨rfl, ?_⟩
    unfold stepBest
    rw [hts]
  | some t =>
    have hstep : stepBest nr acc c
        = (if SIMILARITY_THRESHOLD ≤ t then
            (match acc with
             | none => some ⟨c.id, c.name, t⟩
             | some b0 =>
               if b0.similarity < t then some ⟨c.id, c.name, t⟩ else acc)
           else acc) := by
      unfold stepBest
      rw [hts]
    by_cases hθ : SIMILARITY_THRESHOLD ≤ t
    · rw [if_pos hθ] at hstep
      cases hc : acc with
      | none =>
        rw [hc] at hstep
        exact Or.inr (Or.inr (Or.inl ⟨t, rfl, hθ, rfl, hstep⟩))
      | some b0 =>
        rw [hc] at hstep
        have hstep2 : stepBest nr (some b0) c
            = (if b0.similarity < t then some (⟨c.id, c.name, t⟩ : NormalizedMatch)
               else some b0) := hstep
        by_cases hlt : b0.similarity < t
        · rw [if_pos hlt] at hstep2
          exact Or.inr (Or.inr (Or.inr (Or.inl ⟨t, b0, rfl, hθ, rfl, hlt, hstep2⟩)))
        · rw [if_neg hlt] at hstep2
          exact Or.inr (Or.inr (Or.inr (Or.inr ⟨t, b0, rfl, hθ, rfl, hlt, hstep2⟩)))
    · rw [if_neg hθ] at hstep
      exact Or.inr (Or.inl ⟨t, rfl, hθ, hstep⟩)

theorem stepBest_inv {nr : String} {acc : Option NormalizedMatch} {c : CanonicalProduct}
    (hacc : ∀ b, acc = some b → SIMILARITY_THRESHOLD ≤ b.similarity) :
    ∀ b, stepBest nr acc c = some b → SIMILARITY_THRESHOLD ≤ b.similarity := by
  intro b hb
  rcases stepBest_cases nr acc c with ⟨_, he⟩ | ⟨t, _, _, he⟩ |
    ⟨t, _, hθ, _, he⟩ | ⟨t, b0, _, hθ, _, _, he⟩ | ⟨t, b0, _, _, _, _, he⟩
  · exact hacc b (he ▸ hb)
  · exact hacc b (he ▸ hb)
  · rw [he] at hb
    rw [← Option.some.inj hb]
    exact hθ
  · rw [he] at hb
    rw [← Option.some.inj hb]
    exact hθ
  · exact hacc b (he ▸ hb)

theorem stepBest_none {nr : String} {acc : Option NormalizedMatch} {c : CanonicalProduct}
    (h : stepBest nr acc c = none) :
    acc = none ∧ ∀ q, topScore? nr c = some q → q < SIMILARITY_THRESHOLD := by
  rcases stepBest_cases nr acc c with ⟨hts, he⟩ | ⟨t, hts, hθ, he⟩ |
    ⟨t, hts, hθ, hc, he⟩ | ⟨t, b0, hts, hθ, hc, hlt, he⟩ | ⟨t, b0, hts, hθ, hc, hlt, he⟩
  · refine ⟨he ▸ h, ?_⟩
    intro q hq
    rw [hts] at hq
    exact absurd hq (by simp)
  · refine ⟨he ▸ h, ?_⟩
    intro q hq
    rw [hts] at hq
    rw [← Option.some.inj hq]
    exact lt_of_not_le hθ
  · rw [he] at h
    exact absurd h (by simp)
  · rw [he] at h
    exact absurd h (by simp)
  · rw [he] at h
    rw [h] at hc
    exact absurd hc (by simp)

theorem foldl_stepBest_theta (nr : String) :
    ∀ (cs : List CanonicalProduct) (acc : Option NormalizedMatch),
    (∀ b, acc = some b → SIMILARITY_THRESHOLD ≤ b.similarity) →
    ∀ m, cs.foldl (stepBest nr) acc = some m → SIMILARITY_THRESHOLD ≤ m.similarity := by
  intro cs
  induction cs with
  | nil =>
    intro acc hacc m hm
    exact hacc m hm
  | cons c cs ih =>
    intro acc hacc m hm
    rw [List.foldl_cons] at hm
    exact ih (stepBest nr acc c) (stepBest_inv hacc) m hm

theorem stepBest_mono {nr : String} {acc : Option NormalizedMatch} {c : CanonicalProduct} :
    ∀ b0, acc = some b0 →
    ∃ b1, stepBest nr acc c = some b1 ∧ b0.similarity ≤ b1.similarity := by
  intro b0 h0
  rcases stepBest_cases nr acc c with ⟨_, he⟩ | ⟨t, _, _, he⟩ |
    ⟨t, _, _, hc, he⟩ | ⟨t, b0', _, _, hc, hlt, he⟩ | ⟨t, b0', _, _, _, _, he⟩
  · exact ⟨b0, by rw [he, h0], le_refl _⟩
  · exact ⟨b0, by rw [he, h0], le_refl _⟩
  · rw [h0] at hc
    exact absurd hc (by simp)
  · rw [h0] at hc
    have hb : b0 = b0' := Option.some.inj hc
    have hlt2 : b0.similarity < t := by rw [hb]; exact hlt
    exact ⟨⟨c.id, c.name, t⟩, he, le_of_lt hlt2⟩
  · exact ⟨b0, by rw [he, h0], le_refl _⟩

theorem foldl_stepBest_mono (nr : String) :
    ∀ (cs : List CanonicalProduct) (acc : Option NormalizedMatch) (b0 : NormalizedMatch),
    acc = some b0 →
    ∃ b1, cs.foldl (stepBest nr) acc = some b1 ∧ b0.similarity ≤ b1.similarity := by
  intro cs
  induction cs with
  | nil =>
    intro acc b0 h0
    exact ⟨b0, h0, le_refl _⟩
  | cons c cs ih =>
    intro acc b0 h0
    obtain ⟨b1, h1, hle⟩ := stepBest_mono b0 h0
    obtain ⟨b2, h2, hle2⟩ := ih (stepBest nr acc c) b1 h1
    rw [List.foldl_cons]
    exact ⟨b2, h2, le_trans hle hle2⟩

theorem foldl_stepBest_result_none (nr : String) :
    ∀ (cs : List CanonicalProduct) (acc : Option NormalizedMatch),
    cs.foldl (stepBest nr) acc = none →
    acc = none ∧ ∀ c ∈ cs, ∀ q, topScore? nr c = some q → q < SIMILARITY_THRESHOLD := by
  intro cs
  induction cs with
  | nil =>
    intro acc h
    refine ⟨h, ?_⟩
    intro c hc
    exact absurd hc (List.not_mem_nil c)
  | cons c cs ih =>
    intro acc h
    rw [List.foldl_cons] at h
    obtain ⟨hstep, hall⟩ := ih (stepBest nr acc c) h
    obtain ⟨hacc, hhead⟩ := stepBest_none hstep
    refine ⟨hacc, ?_⟩
    intro c' hc' q hq
    rcases List.mem_cons.1 hc' with h' | h'
    · exact hhead q (h' ▸ hq)
    · exact hall c' h' q hq

theorem foldl_stepBest_dom (nr : String) :
    ∀ (cs : List CanonicalProduct) (acc : Option NormalizedMatch),
    (∀ b, acc = some b → SIMILARITY_THRESHOLD ≤ b.similarity) →
    ∀ m, cs.foldl (stepBest nr) acc = some m →
    ∀ c ∈ cs, ∀ q, topScore? nr c = some q → q ≤ m.similarity := by
  intro cs
  induction cs with
  | nil =>
    intro acc hacc m hm c hc
    exact absurd hc (List.not_mem_nil c)
  | cons c cs ih =>
    intro acc hacc m hm c' hc' q hq
    rw [List.foldl_cons] at hm
    have hacc' := @stepBest_inv nr acc c hacc
    rcases List.mem_cons.1 hc' with h' | h'
    · subst h'
      rcases stepBest_cases nr acc c' with ⟨hts, he⟩ | ⟨t, hts, hθ, he⟩ |
        ⟨t, hts, hθ, hc0, he⟩ | ⟨t, b0, hts, hθ, hc0, hlt, he⟩ | ⟨t, b0, hts, hθ, hc0, hlt, he⟩
      · rw [hts] at hq
        exact absurd hq (by simp)
      · rw [hts] at hq
        have hqt : t = q := Option.some.inj hq
        have hθm := foldl_stepBest_theta nr cs (stepBest nr acc c') hacc' m hm
        exact le_of_lt (lt_of_lt_of_le (hqt ▸ lt_of_not_le hθ) hθm)
      · rw [hts] at hq
        have hqt : t = q := Option.some.inj hq
        obtain ⟨b1, h1, hle⟩ := foldl_stepBest_mono nr cs (stepBest nr acc c')
          ⟨c'.id, c'.name, t⟩ he
        rw [hm] at h1
        have hmb : m = b1 := Option.some.inj h1
        rw [← hqt, hmb]
        exact hle
      · rw [hts] at hq
        have hqt : t = q := Option.some.inj hq
        obtain ⟨b1, h1, hle⟩ := foldl_stepBest_mono nr cs (stepBest nr acc c')
          ⟨c'.id, c'.name, t⟩ he
        rw [hm] at h1
        have hmb : m = b1 := Option.some.inj h1
        rw [← hqt, hmb]
        exact hle
      · rw [hts] at hq
        have hqt : t = q := Option.some.inj hq
        obtain ⟨b1, h1, hle⟩ := foldl_stepBest_mono nr cs (stepBest nr acc c') b0
          (by rw [he, hc0])
        rw [hm] at h1
        have hmb : m = b1 := Option.some.inj h1
        rw [← hqt, hmb]
        exact le_trans (le_of_not_lt hlt) hle
    · exact ih (stepBest nr acc c) hacc' m hm c' h' q hq

theorem foldl_stepBest_prov (nr : String) :
    ∀ (cs : List CanonicalProduct) (acc : Option NormalizedMatch) (m : NormalizedMatch),
    cs.foldl (stepBest nr) acc = some m →
    acc = some m ∨
    ∃ l1 c l2, cs = l1 ++ c :: l2 ∧
      m.productId = c.id ∧ m.productName = c.name ∧
      topScore? nr c = some m.similarity ∧
      SIMILARITY_THRESHOLD ≤ m.similarity ∧
      (∀ b0, acc = some b0 → b0.similarity < m.similarity) ∧
      (∀ c' ∈ l1, ∀ q, topScore? nr c' = some q →
        q < m.similarity ∨ ∃ b0, acc = some b0 ∧ q ≤ b0.similarity) := by
  intro cs
  induction cs with
  | nil =>
    intro acc m hm
    exact Or.inl hm
  | cons c cs ih =>
    intro acc m hm
    rw [List.foldl_cons] at hm
    rcases ih (stepBest nr acc c) m hm with hacc' | hright
    · rcases stepBest_cases nr acc c with ⟨hts, he⟩ | ⟨t, hts, hθ, he⟩ |
        ⟨t, hts, hθ, hc0, he⟩ | ⟨t, b0, hts, hθ, hc0, hlt, he⟩ | ⟨t, b0, hts, hθ, hc0, hlt, he⟩
      · rw [he] at hacc'
        exact Or.inl hacc'
      · rw [he] at hacc'
        exact Or.inl hacc'
      · rw [he] at hacc'
        have hme : m = ⟨c.id, c.name, t⟩ := (Option.some.inj hacc').symm
        refine Or.inr ⟨[], c, cs, by simp, by rw [hme], by rw [hme], ?_, ?_, ?_, ?_⟩
        · rw [hme]
          exact hts
        · rw [hme]
          exact hθ
        · intro b0 h0
          rw [h0] at hc0
          exact absurd hc0 (by simp)
        · intro c' hc'
          exact absurd hc' (List.not_mem_nil c')
      · rw [he] at hacc'
        have hme : m = ⟨c.id, c.name, t⟩ := (Option.some.inj hacc').symm
        refine Or.inr ⟨[], c, cs, by simp, by rw [hme], by rw [hme], ?_, ?_, ?_, ?_⟩
        · rw [hme]
          exact hts
        · rw [hme]
          exact hθ
        · intro b0' h0
          rw [h0] at hc0
          have hb : b0' = b0 := Option.some.inj hc0
          rw [hme, hb]
          exact hlt
        · intro c' hc'
          exact absurd hc' (List.not_mem_nil c')
      · rw [he] at hacc'
        exact Or.inl hacc'
    · obtain ⟨l1, c'', l2, hcs, hid, hname, hts'', hθ'', haccc, hl1⟩ := hright
      refine Or.inr ⟨c :: l1, c'', l2, by rw [hcs]; rfl, hid, hname, hts'', hθ'', ?_, ?_⟩
      · intro b0 h0
        rcases stepBest_cases nr acc c with ⟨hts, he⟩ | ⟨t, hts, hθ, he⟩ |
          ⟨t, hts, hθ, hc0, he⟩ | ⟨t, b1, hts, hθ, hc0, hlt, he⟩ | ⟨t, b1, hts, hθ, hc0, hlt, he⟩
        · exact haccc b0 (by rw [he, h0])
        · exact haccc b0 (by rw [he, h0])
        · rw [h0] at hc0
          exact absurd hc0 (by simp)
        · rw [h0] at hc0
          have hb : b0 = b1 := Option.some.inj hc0
          have hlt2 : b0.similarity < t := by rw [hb]; exact hlt
          have ht := haccc ⟨c.id, c.name, t⟩ he
          exact lt_trans hlt2 ht
        · exact haccc b0 (by rw [he, h0])
      · intro c' hc' q hq
        rcases List.mem_cons.1 hc' with h' | h'
        · subst h'
          rcases stepBest_cases nr acc c' with ⟨hts, he⟩ | ⟨t, hts, hθ, he⟩ |
            ⟨t, hts, hθ, hc0, he⟩ | ⟨t, b1, hts, hθ, hc0, hlt, he⟩ |
            ⟨t, b1, hts, hθ, hc0, hlt, he⟩
          · rw [hts] at hq
            exact absurd hq (by simp)
          · rw [hts] at hq
            have hqt : t = q := Option.some.inj hq
            exact Or.inl (lt_of_lt_of_le (hqt ▸ lt_of_not_le hθ) hθ'')
          · rw [hts] at hq
            have hqt : t = q := Option.some.inj hq
            have ht := haccc ⟨c'.id, c'.name, t⟩ he
            exact Or.inl (hqt ▸ ht)
          · rw [hts] at hq
            have hqt : t = q := Option.some.inj hq
            have ht := haccc ⟨c'.id, c'.name, t⟩ he
            exact Or.inl (hqt ▸ ht)
          · rw [hts] at hq
            have hqt : t = q := Option.some.inj hq
            exact Or.inr ⟨b1, hc0, hqt ▸ le_of_not_lt hlt⟩
        · rcases hl1 c' h' q hq with hlt' | ⟨b0', hs', hle'⟩
          · exact Or.inl hlt'
          · exact Or.inl (lt_of_le_of_lt hle' (haccc b0' hs'))

/-- **C1.** `findBestMatch` returns the first-seen canonical product whose
best similarity score (the maximum of `compareTwoStrings` over its
normalized name and normalized aliases, i.e. `topScore?`) is greatest
among all canonical products, provided that score reaches the 0.65
threshold (equality accepted; ties kept in first-seen order by the
strict `>` comparison); when every canonical product's best score is
below the threshold it returns `none`, and it never returns a product
whose best score is below the threshold. -/
theorem findBestMatch_first_seen_argmax (rawName : String) (cs : List CanonicalProduct) :
    (∀ m, findBestMatch rawName cs = some m →
       SIMILARITY_THRESHOLD ≤ m.similarity ∧
       (∀ c ∈ cs, ∀ q, topScore? (normalizeForComparison rawName) c = some q →
          q ≤ m.similarity) ∧
       (∃ l1 c l2, cs = l1 ++ c :: l2 ∧
          m.productId = c.id ∧ m.productName = c.name ∧
          topScore? (normalizeForComparison rawName) c = some m.similarity ∧
          ∀ c' ∈ l1, ∀ q, topScore? (normalizeForComparison rawName) c' = some q →
            q < m.similarity)) ∧
    (findBestMatch rawName cs = none →
       ∀ c ∈ cs, ∀ q, topScore? (normalizeForComparison rawName) c = some q →
         q < SIMILARITY_THRESHOLD) := by
  have hdef : findBestMatch rawName cs
      = (if normalizeForComparison rawName = "" then none
         else cs.foldl (stepBest (normalizeForComparison rawName)) none) := rfl
  by_cases hnr : normalizeForComparison rawName = ""
  · constructor
    · intro m hm
      rw [hdef, if_pos hnr] at hm
      exact absurd hm (by simp)
    · intro _ c hc q hq
      rw [hnr] at hq
      exact topScore_empty_lt c q hq
  · have hvac : ∀ b : NormalizedMatch,
        (none : Option NormalizedMatch) = some b → SIMILARITY_THRESHOLD ≤ b.similarity := by
      intro b hb
      exact absurd hb (by simp)
    constructor
    · intro m hm
      rw [hdef, if_neg hnr] at hm
      refine ⟨foldl_stepBest_theta (normalizeForComparison rawName) cs none hvac m hm,
        foldl_stepBest_dom (normalizeForComparison rawName) cs none hvac m hm, ?_⟩
      rcases foldl_stepBest_prov (normalizeForComparison rawName) cs none m hm with
        h | ⟨l1, c, l2, hcs, hid, hname, hts, hθ, _, hl1⟩
      · exact absurd h (by simp)
      · refine ⟨l1, c, l2, hcs, hid, hname, hts, ?_⟩
        intro c' h' q hq
        rcases hl1 c' h' q hq with h | ⟨b0, hb0, _⟩
        · exact h
        · exact absurd hb0 (by simp)
    · intro hm' c hc q hq
      rw [hdef, if_neg hnr] at hm'
      exact (foldl_stepBest_result_none (normalizeForComparison rawName) cs none hm').2
        c hc q hq

theorem findBestMatch_first_seen_argmax_witness :
    SIMILARITY_THRESHOLD
      ≤ (⟨1, "молоко", (1 : ℚ)⟩ : NormalizedMatch).similarity ∧
    (∀ q, topScore? (normalizeForComparison "Сыр")
        (⟨1, "молоко", []⟩ : CanonicalProduct) = some q → q < SIMILARITY_THRESHOLD) := by
  constructor
  · exact ((findBestMatch_first_seen_argmax "Молоко"
      [⟨1, "молоко", []⟩, ⟨2, "хлеб", []⟩]).1 ⟨1, "молоко", (1 : ℚ)⟩ rfl).1
  · intro q hq
    exact (findBestMatch_first_seen_argmax "Сыр" [⟨1, "молоко", []⟩]).2 rfl
      (⟨1, "молоко", []⟩ : CanonicalProduct) (by simp) q hq

end GdeDeshevle

